import Mathlib

/-!
Verification of the minesweeper solver in src/src/main.rs.

Modelling conventions:
* Machine integers (i32, u8, usize) are modelled as Int or Nat; no board in
  this development comes close to overflow, so no wrap-around is modelled.
* f32 probabilities and luck are modelled as exact rationals.  Float literals
  are taken at their decimal value (0.0001 becomes 1/10000).  Division by
  zero, which yields inf or NaN for f32, yields 0 for Rat; the one place
  where an inf can feed the convergence test (an active cell with no unknown
  neighbour and a nonzero expectation) is tracked explicitly by a sawInf
  flag so that the early-exit test matches the f32 behaviour, where
  f32.max ignores NaN and propagates inf.
* The Rust HashMap of probabilities is modelled as an association list in
  insertion order; the HashMap iteration order is unspecified in Rust, and
  this fixes one order.  Sums and uniform updates do not depend on it.
* The Minefield trait is modelled as a record with a pure sweep function
  returning Option SweepOut; none models a panic or error inside the
  oracle, and SweepOut restricts results to the two outcomes every
  implementation can produce (a neighbour count or a mine), which is the
  contract stated by the specification.
* Rust Result is modelled as Except String; a panic (assert, unwrap,
  explicit panic) is modelled as an error as well, with a distinct message.
* The solver loop is modelled with explicit fuel; the fuel theorem shows
  that countUnknown of the board plus one is always enough, which is the
  termination argument of the specification.
* Ghost data (the list of guesses with their contexts and the per-iteration
  frontier sums of each relaxation invocation) is accumulated alongside the
  result so that statements about every guess or every relaxation iteration
  of a run can be made; it does not influence the computation.
-/

set_option allowUnsafeReducibility true in
attribute [semireducible] Rat.add Rat.sub Rat.mul Rat.inv Rat.ofScientific

deriving instance DecidableEq for Except

namespace RustyMines

/-- Cell states of the solver board, from the Rust enum Cell. -/
inductive Cell where
  | Unknown : Cell
  | Flag : Cell
  | Number : Nat → Cell
  | Mine : Cell
deriving DecidableEq, Repr

/-- Board position, from the Rust struct Pos(i32, i32): column then row. -/
abbrev Pos := Int × Int

/-- The eight neighbour offsets, in the order of the NEIGHBORS constant. -/
def NEIGHBORS : List (Int × Int) :=
  [(1, 1), (1, 0), (1, -1), (0, 1), (0, -1), (-1, 1), (-1, 0), (-1, -1)]

/-- The two outcomes a Minefield sweep can deliver: a cleared cell with its
neighbour mine count, or a detonated mine.  Both Rust implementations of the
trait return exactly Cell::Number or Cell::Mine. -/
inductive SweepOut where
  | Number : Nat → SweepOut
  | Mine : SweepOut
deriving DecidableEq, Repr

/-- A sweep outcome as the cell recorded on the board. -/
def SweepOut.toCell : SweepOut → Cell
  | .Number n => .Number n
  | .Mine => .Mine

/-- The Minefield capability: dimensions, mine count and a sweep oracle.
The sweep function returns none when the oracle itself fails. -/
structure Minefield where
  width : Int
  height : Int
  number_of_mines : Int
  sweep : Int → Int → Option SweepOut

/-- Solver state: the board array plus the two running counters. -/
structure Solver where
  board : List Cell
  flags : Int
  unknowns : Int
deriving DecidableEq, Repr

/-- Solver::new -/
def Solver.new (mf : Minefield) : Solver :=
  { board := List.replicate (mf.width * mf.height).toNat Cell.Unknown
    flags := 0
    unknowns := ((mf.width * mf.height).toNat : Int) }

/-- Solver::index -/
def indexOf (mf : Minefield) (pos : Pos) : Option Nat :=
  if pos.1 < 0 ∨ mf.width ≤ pos.1 ∨ pos.2 < 0 ∨ mf.height ≤ pos.2 then none
  else some (pos.1 + pos.2 * mf.width).toNat

/-- Solver::get (reads only the board, so it takes the board directly). -/
def boardGet (mf : Minefield) (b : List Cell) (pos : Pos) : Option Cell :=
  (indexOf mf pos).bind fun i => b.get? i

/-- Solver::neighbors -/
def neighborsOf (mf : Minefield) (b : List Cell) (pos : Pos) :
    List (Pos × Cell) :=
  NEIGHBORS.filterMap fun o =>
    (boardGet mf b (pos.1 + o.1, pos.2 + o.2)).map
      fun cell => ((pos.1 + o.1, pos.2 + o.2), cell)

/-- Solver::uncover.  The sweep happens first, then the bounds check, then
the was-Unknown assertion, then the mutation; errors leave the state as it
was, like the Rust early returns, and the solver state is returned in both
cases so that this is visible. -/
def uncover (mf : Minefield) (s : Solver) (pos : Pos) :
    Except String Cell × Solver :=
  match mf.sweep pos.1 pos.2 with
  | none => (.error "sweep_cell failed", s)
  | some out =>
    match indexOf mf pos with
    | none => (.error "Bad index", s)
    | some i =>
      match s.board.get? i with
      | some Cell.Unknown =>
        (.ok out.toCell,
          { board := s.board.set i out.toCell
            flags := s.flags
            unknowns := s.unknowns - 1 })
      | some _ => (.error "assertion failed: board cell was not Unknown", s)
      | none => (.error "index out of range", s)

/-- Solver::plant_flag -/
def plant_flag (mf : Minefield) (s : Solver) (pos : Pos) :
    Except String Unit × Solver :=
  match indexOf mf pos with
  | none => (.error "Bad index", s)
  | some i =>
    match s.board.get? i with
    | some Cell.Unknown =>
      (.ok (),
        { board := s.board.set i Cell.Flag
          flags := s.flags + 1
          unknowns := s.unknowns - 1 })
    | some _ => (.error "assertion failed: board cell was not Unknown", s)
    | none => (.error "index out of range", s)

/-- Number of Unknown cells actually on the board. -/
def countUnknown (b : List Cell) : Nat :=
  b.countP fun c => decide (c = Cell.Unknown)

/-- Number of Flag cells actually on the board. -/
def countFlag (b : List Cell) : Nat :=
  b.countP fun c => decide (c = Cell.Flag)

/-- Number of Mine cells actually on the board. -/
def countMine (b : List Cell) : Nat :=
  b.countP fun c => decide (c = Cell.Mine)

/-- Number of Number cells actually on the board. -/
def countNumber (b : List Cell) : Nat :=
  b.countP fun c => match c with | Cell.Number _ => true | _ => false

/-- Number of revealed cells: Number cells plus Mine cells. -/
def revealedCount (b : List Cell) : Nat :=
  countNumber b + countMine b

/-- Solver::solved -/
def solved (mf : Minefield) (s : Solver) : Bool :=
  (countUnknown s.board == 0) && (countMine s.board == 0) &&
    ((countFlag s.board : Int) == mf.number_of_mines)

/-- Outcome of one propagation round: either the early return
Ok((false, luck)) triggered by an active Mine cell, or the continuation
state with the next worklist and the productivity flag. -/
inductive RoundStep where
  | ret : Bool → ℚ → Solver → RoundStep
  | cont : Solver → List Pos → Bool → RoundStep
deriving DecidableEq, Repr

/-- Rule A body: uncover every listed position in order, pushing each onto
the next worklist (the for loop over unknown neighbours in solve). -/
def uncoverList (mf : Minefield) :
    List Pos → Solver → List Pos → Except String (Solver × List Pos)
  | [], s, next => .ok (s, next)
  | p :: ps, s, next =>
    match uncover mf s p with
    | (.error e, _) => .error e
    | (.ok _, s') => uncoverList mf ps s' (next ++ [p])

/-- Rule B body: plant a flag on every listed position in order. -/
def flagList (mf : Minefield) :
    List Pos → Solver → Except String Solver
  | [], s => .ok s
  | p :: ps, s =>
    match plant_flag mf s p with
    | (.error e, _) => .error e
    | (.ok _, s') => flagList mf ps s'

/-- The positions of the Unknown cells of a neighbour list snapshot. -/
def unknownPositions (ns : List (Pos × Cell)) : List Pos :=
  ns.filterMap fun pc => if pc.2 = Cell.Unknown then some pc.1 else none

/-- One propagation round: the for loop over the active worklist in solve.
Processes the list in order, threading the solver state, the next worklist
and the new_info flag; an active Mine cell returns (false, luck) at once. -/
def processActive (mf : Minefield) (luck : ℚ) :
    List Pos → Solver → List Pos → Bool → Except String RoundStep
  | [], s, next, newInfo => .ok (.cont s next newInfo)
  | pos :: rest, s, next, newInfo =>
    match boardGet mf s.board pos with
    | none => .error "Bad active cell location"
    | some cell =>
      match cell with
      | Cell.Number mines =>
        let ns := neighborsOf mf s.board pos
        let flags : Int := ns.countP fun pc => decide (pc.2 = Cell.Flag)
        let unknowns : Int := ns.countP fun pc => decide (pc.2 = Cell.Unknown)
        if unknowns = 0 then
          processActive mf luck rest s next newInfo
        else if (mines : Int) = flags then
          match uncoverList mf (unknownPositions ns) s next with
          | .error e => .error e
          | .ok (s', next') => processActive mf luck rest s' next' true
        else if unknowns + flags = (mines : Int) then
          match flagList mf (unknownPositions ns) s with
          | .error e => .error e
          | .ok s' => processActive mf luck rest s' next true
        else
          processActive mf luck rest s (next ++ [pos]) newInfo
      | Cell.Unknown =>
        match uncover mf s pos with
        | (.error e, _) => .error e
        | (.ok _, s') => processActive mf luck rest s' (next ++ [pos]) true
      | Cell.Mine => .ok (.ret false luck s)
      | Cell.Flag => processActive mf luck rest s next newInfo

/-! ## Probability relaxation engine -/

/-- The probability map: an association list in insertion order standing in
for the Rust HashMap. -/
abbrev Probs := List (Pos × ℚ)

/-- Lookup in the probability map. -/
def lookupP (probs : Probs) (p : Pos) : Option ℚ :=
  (probs.find? fun kv => kv.1 == p).map (·.2)

/-- Insert with overwrite, keeping the position of an existing key
(HashMap insert semantics, determinised to insertion order). -/
def insertP (probs : Probs) (p : Pos) (v : ℚ) : Probs :=
  if (probs.find? fun kv => kv.1 == p).isSome then
    probs.map fun kv => if kv.1 == p then (kv.1, v) else kv
  else
    probs ++ [(p, v)]

/-- Update the value at a key if present (HashMap get_mut semantics). -/
def updateP (probs : Probs) (p : Pos) (f : ℚ → ℚ) : Probs :=
  probs.map fun kv => if kv.1 == p then (kv.1, f kv.2) else kv

/-- f32::max (the larger argument). -/
def maxQ (a b : ℚ) : ℚ :=
  if a < b then b else a

/-- f32::abs -/
def absQ (x : ℚ) : ℚ :=
  if x < 0 then -x else x

/-- f32::clamp(x, 0.0, 1.0) -/
def clampQ (x : ℚ) : ℚ :=
  if x < 0 then 0 else if 1 < x then 1 else x

/-- Sum of the probability map values. -/
def sumProbs (probs : Probs) : ℚ :=
  (probs.map (·.2)).sum

/-- Initial probability map: every Unknown neighbour of an active cell is
inserted at the naive chance. -/
def buildProbs (mf : Minefield) (b : List Cell) (active : List Pos)
    (naive : ℚ) : Probs :=
  active.foldl
    (fun probs pos =>
      (unknownPositions (neighborsOf mf b pos)).foldl
        (fun probs p => insertP probs p naive) probs)
    []

/-- Sum of the probabilities of a list of positions; an absent key is the
unwrap panic of the Rust code. -/
def sumAt (probs : Probs) : List Pos → Except String ℚ
  | [] => .ok 0
  | p :: ps =>
    match lookupP probs p with
    | none => .error "probs unwrap"
    | some v => (sumAt probs ps).map fun r => v + r

/-- Per-cell step of one relaxation iteration.  State: probability map,
largest correction magnitude so far, and whether an infinite correction
occurred (empty unknown-neighbour list with nonzero expectation; for f32
the correction is then infinite, so convergence is never reached). -/
def relaxCell (mf : Minefield) (b : List Cell)
    (st : Probs × ℚ × Bool) (pos : Pos) : Except String (Probs × ℚ × Bool) :=
  match boardGet mf b pos with
  | none => .error "Bad active cell location"
  | some cell =>
    match cell with
    | Cell.Number mines =>
      let ns := neighborsOf mf b pos
      let flags : Int := ns.countP fun pc => decide (pc.2 = Cell.Flag)
      let unk := unknownPositions ns
      let expected : ℚ := ((mines : Int) - flags : Int)
      match sumAt st.1 unk with
      | .error e => .error e
      | .ok sum =>
        if unk.length = 0 then
          .ok (st.1, st.2.1, st.2.2 || decide (expected ≠ 0))
        else
          let correction := (expected - sum) / (unk.length : ℚ)
          let maxc := maxQ st.2.1 (absQ correction)
          let probs' := unk.foldl
            (fun pr p => updateP pr p fun v => clampQ (v + correction)) st.1
          .ok (probs', maxc, st.2.2)
    | _ => .ok st

/-- Global normalisation step: if the total exceeds the remaining mines,
subtract the uniform correction from every entry, clamped; returns the new
map and the correction magnitude folded into the iteration maximum. -/
def normalizeProbs (rm : Int) (probs : Probs) : Probs × ℚ :=
  let sum := sumProbs probs
  if (rm : ℚ) < sum then
    let correction := ((rm : ℚ) - sum) / (probs.length : ℚ)
    (probs.map fun kv => (kv.1, clampQ (kv.2 + correction)), absQ correction)
  else
    (probs, 0)

/-- The pass of one relaxation iteration over the active cells, in order. -/
def relaxPass (mf : Minefield) (b : List Cell) :
    List Pos → Probs × ℚ × Bool → Except String (Probs × ℚ × Bool)
  | [], st => .ok st
  | pos :: rest, st =>
    match relaxCell mf b st pos with
    | .error e => .error e
    | .ok st' => relaxPass mf b rest st'

/-- One complete relaxation iteration: the pass over all active cells
followed by the global normalisation. -/
def relaxIterOnce (mf : Minefield) (b : List Cell) (active : List Pos)
    (rm : Int) (probs : Probs) : Except String (Probs × ℚ × Bool) :=
  match relaxPass mf b active (probs, (0 : ℚ), false) with
  | .error e => .error e
  | .ok (probs₁, maxc, inf) =>
    let n := normalizeProbs rm probs₁
    .ok (n.1, maxQ maxc n.2, inf)

/-- The bounded refinement loop (for _ in 0..100), with the ghost list of
the frontier totals recorded after each complete iteration. -/
def relaxLoop (mf : Minefield) (b : List Cell) (active : List Pos)
    (rm : Int) : Nat → Probs → List ℚ → Except String (Probs × List ℚ)
  | 0, probs, sums => .ok (probs, sums)
  | Nat.succ n, probs, sums =>
    match relaxIterOnce mf b active rm probs with
    | .error e => .error e
    | .ok (probs', maxc, inf) =>
      let sums' := sums ++ [sumProbs probs']
      if maxc < 1 / 10000 ∧ inf = false then .ok (probs', sums')
      else relaxLoop mf b active rm n probs' sums'

/-- Iterator::min_by with the f32 partial order: the first entry whose
value is strictly below every earlier one (ties keep the earlier entry). -/
def minByFirst (probs : Probs) : Option (Pos × ℚ) :=
  probs.foldl
    (fun acc kv =>
      match acc with
      | none => some kv
      | some best => if kv.2 < best.2 then some kv else some best)
    none

/-- List of the column indices 0..w-1 as integers. -/
def intRange (n : Int) : List Int :=
  (List.range n.toNat).map Int.ofNat

/-- The pos_other closure: scan columns in the outer loop and rows in the
inner loop, returning the first Unknown cell absent from the probability
map; none models the panic when no such cell exists. -/
def posOther (mf : Minefield) (b : List Cell) (probs : Probs) : Option Pos :=
  (intRange mf.width).findSome? fun col =>
    (intRange mf.height).findSome? fun row =>
      if boardGet mf b (col, row) = some Cell.Unknown ∧
          lookupP probs (col, row) = none then
        some (col, row)
      else none

/-- The final selection match of solve (lines 423-451): the minimal frontier
entry by default, the first scanned isolated cell when isolated cells exist
and p_other is strictly below the minimum, and the scanned cell with
p_other when the frontier map is empty. -/
def chooseGuess (mf : Minefield) (b : List Cell) (unknowns : Int)
    (probs : Probs) (rm : Int) : Except String (Pos × ℚ) :=
  let sum := sumProbs probs
  let border : Int := probs.length
  let isolated : Int := unknowns - border
  let p_other : ℚ := ((rm : ℚ) - sum) / (isolated : ℚ)
  match minByFirst probs with
  | some best =>
    if 0 < isolated ∧ p_other < best.2 then
      match posOther mf b probs with
      | some q => .ok (q, p_other)
      | none => .error "panic: no isolated cell found"
    else .ok best
  | none =>
    match posOther mf b probs with
    | some q => .ok (q, p_other)
    | none => .error "panic: no isolated cell found"

/-- The probability engine: naive initialisation, at most 100 refinement
iterations; returns the relaxed map and the ghost list of iteration
totals. -/
def relaxedProbs (mf : Minefield) (b : List Cell) (unknowns : Int)
    (active : List Pos) (rm : Int) : Except String (Probs × List ℚ) :=
  let naive : ℚ := (rm : ℚ) / (unknowns : ℚ)
  relaxLoop mf b active rm 100 (buildProbs mf b active naive) []

/-- Probability engine plus guess selection. -/
def selectGuess (mf : Minefield) (b : List Cell) (unknowns : Int)
    (active : List Pos) (rm : Int) :
    Except String ((Pos × ℚ) × List ℚ) :=
  match relaxedProbs mf b unknowns active rm with
  | .error e => .error e
  | .ok (probs, sums) =>
    match chooseGuess mf b unknowns probs rm with
    | .error e => .error e
    | .ok choice => .ok (choice, sums)

/-! ## Solve orchestrator -/

/-- Ghost record of one forced guess: the selector inputs (board, active
worklist, remaining mines, unknown counter), the chosen probe with its
probability, and the luck value right after the multiplication. -/
structure GuessCtx where
  board : List Cell
  active : List Pos
  rm : Int
  unknowns : Int
  chosen : Pos × ℚ
  luckAfter : ℚ
deriving DecidableEq, Repr

/-- Ghost record of one probability-engine invocation: the remaining mines
and the frontier total after each complete relaxation iteration. -/
structure RelaxTrace where
  rm : Int
  sums : List ℚ
deriving DecidableEq, Repr

/-- Ghost data of a run. -/
structure Ghost where
  guesses : List GuessCtx
  relax : List RelaxTrace
deriving DecidableEq, Repr

/-- Empty ghost. -/
def Ghost.nil : Ghost := { guesses := [], relax := [] }

/-- Prepend one guess record and one relaxation record. -/
def Ghost.push (g : GuessCtx) (rt : RelaxTrace) (gh : Ghost) : Ghost :=
  { guesses := g :: gh.guesses, relax := rt :: gh.relax }

/-- All board positions with the column in the outer loop and the row in
the inner loop, the order of the bulk-reveal loop of solve. -/
def colMajorPositions (mf : Minefield) : List Pos :=
  (intRange mf.width).flatMap fun col =>
    (intRange mf.height).map fun row => ((col, row) : Pos)

/-- Body of the bulk reveal: walk the position list and uncover every cell
that is still Unknown. -/
def uncoverAllGo (mf : Minefield) : List Pos → Solver → Except String Solver
  | [], s => .ok s
  | pos :: rest, s =>
    match boardGet mf s.board pos with
    | some Cell.Unknown =>
      match uncover mf s pos with
      | (.error e, _) => .error e
      | (.ok _, s') => uncoverAllGo mf rest s'
    | _ => uncoverAllGo mf rest s

/-- The bulk reveal executed when remaining_mines is zero: uncover every
cell that is still Unknown, scanning columns in the outer loop. -/
def uncoverAllUnknown (mf : Minefield) (s : Solver) : Except String Solver :=
  uncoverAllGo mf (colMajorPositions mf) s

/-- The main solve loop, one recursive call per Rust loop iteration, with
explicit fuel.  The argument nextIn is the worklist swapped into active at
the top of the iteration.  Returns the Rust return value, the final solver
state, and the ghost data of the remaining iterations. -/
def solveLoop (mf : Minefield) :
    Nat → List Pos → ℚ → Solver → Except String ((Bool × ℚ) × Solver × Ghost)
  | 0, _, _, _ => .error "OUT_OF_FUEL"
  | Nat.succ fuel, nextIn, luck, s =>
    match processActive mf luck nextIn s [] false with
    | .error e => .error e
    | .ok (.ret b l s₁) => .ok ((b, l), s₁, Ghost.nil)
    | .ok (.cont s₁ next₁ newInfo) =>
      if s₁.unknowns = 0 then
        .ok ((solved mf s₁, luck), s₁, Ghost.nil)
      else
        let rm := mf.number_of_mines - s₁.flags
        if rm = 0 then
          match uncoverAllUnknown mf s₁ with
          | .error e => .error e
          | .ok s₂ => .ok ((solved mf s₂, luck), s₂, Ghost.nil)
        else if newInfo then
          solveLoop mf fuel next₁ luck s₁
        else
          match selectGuess mf s₁.board s₁.unknowns nextIn rm with
          | .error e => .error e
          | .ok (choice, sums) =>
            let luck' := luck * (1 - choice.2)
            let g : GuessCtx :=
              { board := s₁.board, active := nextIn, rm := rm
                unknowns := s₁.unknowns, chosen := choice
                luckAfter := luck' }
            let rt : RelaxTrace := { rm := rm, sums := sums }
            match uncover mf s₁ choice.1 with
            | (.error e, _) => .error e
            | (.ok cell, s₂) =>
              if cell = Cell.Mine then
                .ok ((false, luck'), s₂, Ghost.push g rt Ghost.nil)
              else
                match solveLoop mf fuel (next₁ ++ [choice.1]) luck' s₂ with
                | .error e => .error e
                | .ok (r, s₃, gh) => .ok (r, s₃, Ghost.push g rt gh)

/-- Solver::solve, with fuel one more than the number of Unknown cells
(shown sufficient by the termination theorem). -/
def solve (mf : Minefield) (s : Solver) :
    Except String ((Bool × ℚ) × Solver × Ghost) :=
  solveLoop mf (countUnknown s.board + 1) [((0 : Int), (0 : Int))] 1 s

/-- The ghost data of a run result (empty ghost on error). -/
def ghostOf (r : Except String ((Bool × ℚ) × Solver × Ghost)) : Ghost :=
  match r with
  | .ok (_, _, gh) => gh
  | .error _ => Ghost.nil

/-! ## Concrete minefields used by witnesses and counterexamples -/

/-- Sweep oracle from a finite table. -/
def tableSweep (t : List (Pos × SweepOut)) : Int → Int → Option SweepOut :=
  fun c r => (t.lookup ((c, r) : Pos))

/-- 3 by 3 board used for the guess-selector scan-order counterexample:
the corner probe reports 4 adjacent mines, forcing an immediate stall with
frontier probabilities 1 and five isolated cells, so the isolated branch
fires on the very first guess. -/
def mfScan : Minefield :=
  { width := 3, height := 3, number_of_mines := 4
    sweep := tableSweep [(((0 : Int), (0 : Int)), SweepOut.Number 4),
                         (((0 : Int), (2 : Int)), SweepOut.Mine)] }

/-- 6 by 1 board with an inflated mine count used for the luck
counterexample: two flag deductions and two stalls with an empty frontier
produce isolated-cell probabilities 2 and 7/2, so luck goes 1, -1, 5/2. -/
def mfLuck : Minefield :=
  { width := 6, height := 1, number_of_mines := 9
    sweep := tableSweep [(((0 : Int), (0 : Int)), SweepOut.Number 1),
                         (((2 : Int), (0 : Int)), SweepOut.Number 2),
                         (((4 : Int), (0 : Int)), SweepOut.Mine)] }

/-- 5 by 3 board used for the relaxation-total counterexample: after a
cascade and one flag, the stall has frontier (3,0), (3,1), (3,2) with
remaining mines 1, and the normalisation clamps the (3,2) probability at
zero, leaving the frontier total at 4/3 from the second iteration on. -/
def mfRelax : Minefield :=
  { width := 5, height := 3, number_of_mines := 2
    sweep := tableSweep
      [(((0 : Int), (0 : Int)), SweepOut.Number 0),
       (((1 : Int), (0 : Int)), SweepOut.Number 0),
       (((2 : Int), (0 : Int)), SweepOut.Number 3),
       (((3 : Int), (0 : Int)), SweepOut.Number 2),
       (((4 : Int), (0 : Int)), SweepOut.Number 0),
       (((0 : Int), (1 : Int)), SweepOut.Number 0),
       (((1 : Int), (1 : Int)), SweepOut.Number 4),
       (((2 : Int), (1 : Int)), SweepOut.Number 2),
       (((3 : Int), (1 : Int)), SweepOut.Number 2),
       (((4 : Int), (1 : Int)), SweepOut.Number 0),
       (((0 : Int), (2 : Int)), SweepOut.Number 0),
       (((1 : Int), (2 : Int)), SweepOut.Number 1),
       (((2 : Int), (2 : Int)), SweepOut.Number 1),
       (((3 : Int), (2 : Int)), SweepOut.Number 2),
       (((4 : Int), (2 : Int)), SweepOut.Number 0)] }

/-! ## RustMinefield with lazy mine placement -/

/-- Number of mines actually placed on a native field. -/
def countTrue (f : List Bool) : Nat := f.countP id

/-- The lazy placement loop of RustMinefield::get, driven by the stream of
random indices: while mines remain, draw an index, and place a mine there
when it is neither the first-probed index nor already mined.  The result is
none when the stream is exhausted first (the Rust loop would keep drawing)
or when a drawn index is out of range (the Rust indexing would panic;
gen_range makes that impossible). -/
def placeMines (index : Nat) : Int → List Nat → List Bool → Option (List Bool)
  | minesLeft, rnds, field =>
    if minesLeft = 0 then some field
    else
      match rnds with
      | [] => none
      | r :: rest =>
        match field.get? r with
        | none => none
        | some b =>
          if r ≠ index ∧ b = false then
            placeMines index (minesLeft - 1) rest (field.set r true)
          else
            placeMines index minesLeft rest field

/-- RustMinefield::get on an already placed field. -/
def rustGetPlaced (field : List Bool) (w h c r : Int) : Option Bool :=
  if c < 0 ∨ w ≤ c ∨ r < 0 ∨ h ≤ r then none
  else field.get? (c + r * w).toNat

/-- RustMinefield::neighbors: the mine count of the eight neighbours, with
out-of-bounds neighbours counting as safe (unwrap_or(false)). -/
def neighborsCount (field : List Bool) (w h c r : Int) : Nat :=
  (NEIGHBORS.map fun o =>
    if (rustGetPlaced field w h (c + o.1) (r + o.2)).getD false then 1 else 0).sum

/-- The first sweep_cell call on a fresh RustMinefield: the field is still
empty, so an in-bounds probe first runs the placement loop and then answers
from the placed grid; none models the panic on an out-of-bounds probe and
a placement loop that does not complete. -/
def sweep_cell_first (w h m : Int) (randoms : List Nat) (c r : Int) :
    Option Cell :=
  if c < 0 ∨ w ≤ c ∨ r < 0 ∨ h ≤ r then none
  else
    match placeMines (c + r * w).toNat m randoms
        (List.replicate (w * h).toNat false) with
    | none => none
    | some field =>
      match field.get? (c + r * w).toNat with
      | none => none
      | some true => some Cell.Mine
      | some false => some (Cell.Number (neighborsCount field w h c r))

/-! ## Reference definitions written from the specification text -/

/-- The minimum of a list of values (none when empty). -/
def specMinVal : List ℚ → Option ℚ
  | [] => none
  | x :: xs => some (xs.foldl min x)

/-- All board positions with the row in the outer loop and the column
varying fastest within a row, the scan order named by the claim. -/
def rowMajorPositions (mf : Minefield) : List Pos :=
  (intRange mf.height).flatMap fun row =>
    (intRange mf.width).map fun col => ((col, row) : Pos)

/-- Guess selection as the specification words it, over a given scan order:
the frontier entry of minimal probability by default; when isolated cells
exist and p_other is strictly below that minimum, the first Unknown cell
absent from the frontier map in the scan order. -/
def chooseGuessSpecWith (scan : List Pos) (mf : Minefield) (b : List Cell)
    (unknowns : Int) (probs : Probs) (rm : Int) : Option (Pos × ℚ) :=
  let isolated : Int := unknowns - probs.length
  let p_other : ℚ := ((rm : ℚ) - sumProbs probs) / (isolated : ℚ)
  let scanHit := scan.find? fun pos =>
    decide (boardGet mf b pos = some Cell.Unknown ∧ lookupP probs pos = none)
  match specMinVal (probs.map (·.2)) with
  | some m =>
    if 0 < isolated ∧ p_other < m then
      scanHit.map fun q => (q, p_other)
    else
      probs.find? fun kv => kv.2 == m
  | none => scanHit.map fun q => (q, p_other)

/-- The claim C2 reference selector: row-major scan. -/
def chooseGuessSpecRow (mf : Minefield) (b : List Cell) (unknowns : Int)
    (probs : Probs) (rm : Int) : Option (Pos × ℚ) :=
  chooseGuessSpecWith (rowMajorPositions mf) mf b unknowns probs rm

/-- The amended reference selector: column-major scan, the order of the
pos_other loop. -/
def chooseGuessSpecCol (mf : Minefield) (b : List Cell) (unknowns : Int)
    (probs : Probs) (rm : Int) : Option (Pos × ℚ) :=
  chooseGuessSpecWith (colMajorPositions mf) mf b unknowns probs rm

/-- The relaxed probability map recomputed from a recorded guess context
(the selector inputs recorded in the ghost data determine it). -/
def ctxRelaxed (mf : Minefield) (g : GuessCtx) : Probs :=
  match relaxedProbs mf g.board g.unknowns g.active g.rm with
  | .ok (p, _) => p
  | .error _ => []

/-- The claim C2 reference choice recomputed at a recorded guess context. -/
def specRowChoice (mf : Minefield) (g : GuessCtx) : Option Pos :=
  (chooseGuessSpecRow mf g.board g.unknowns (ctxRelaxed mf g) g.rm).map (·.1)

/-! ## Luck bookkeeping predicates -/

/-- The luck recurrence along the recorded guesses: each recorded luck is
the previous one multiplied by one minus the chosen probability. -/
def luckChainB : ℚ → List GuessCtx → Bool
  | _, [] => true
  | l, g :: gs => (g.luckAfter == l * (1 - g.chosen.2)) && luckChainB g.luckAfter gs

/-- The list is non-increasing starting from the given value. -/
def nonincB : ℚ → List ℚ → Bool
  | _, [] => true
  | l, x :: xs => (decide (x ≤ l)) && nonincB x xs

/-- The two redundant counters agree with the board scan. -/
def counterSync (s : Solver) : Prop :=
  s.flags = (countFlag s.board : Int) ∧
    s.unknowns = (countUnknown s.board : Int)

/-! ## Small minefields for witnesses -/

/-- 1 by 1 board with no mines: solves with zero guesses. -/
def mfTiny : Minefield :=
  { width := 1, height := 1, number_of_mines := 0
    sweep := tableSweep [(((0 : Int), (0 : Int)), SweepOut.Number 0)] }

/-- 1 by 1 board whose only cell is a mine. -/
def mfMine1 : Minefield :=
  { width := 1, height := 1, number_of_mines := 1
    sweep := tableSweep [(((0 : Int), (0 : Int)), SweepOut.Mine)] }

/-- 3 by 1 board where the corner probe reports 1, the neighbour is then
flagged, and the bulk reveal finishes the board. -/
def mfFlagHalt : Minefield :=
  { width := 3, height := 1, number_of_mines := 1
    sweep := tableSweep [(((0 : Int), (0 : Int)), SweepOut.Number 1),
                         (((2 : Int), (0 : Int)), SweepOut.Number 0)] }

/-- 2 by 2 board whose oracle answers every probe, in or out of bounds. -/
def mfTotal : Minefield :=
  { width := 2, height := 2, number_of_mines := 1
    sweep := fun _ _ => some (SweepOut.Number 0) }

/-! ## Counting lemmas -/

theorem countP_set_add (p : Cell → Bool) (b : List Cell) (i : Nat)
    (c cOld : Cell) (h : b.get? i = some cOld) :
    (b.set i c).countP p + (if p cOld then 1 else 0) =
      b.countP p + (if p c then 1 else 0) := by
  induction b generalizing i with
  | nil => simp at h
  | cons hd tl ih =>
    cases i with
    | zero =>
      simp only [List.get?] at h
      injection h with h
      subst h
      simp only [List.set, List.countP_cons]
      omega
    | succ n =>
      simp only [List.get?] at h
      have := ih n h
      simp only [List.set, List.countP_cons]
      omega

theorem toCell_ne_unknown (out : SweepOut) : out.toCell ≠ Cell.Unknown := by
  cases out <;> simp [SweepOut.toCell]

theorem toCell_ne_flag (out : SweepOut) : out.toCell ≠ Cell.Flag := by
  cases out <;> simp [SweepOut.toCell]

/-- Inversion of a successful uncover. -/
theorem uncover_ok {mf : Minefield} {s : Solver} {pos : Pos} {c : Cell}
    {s' : Solver} (h : uncover mf s pos = (.ok c, s')) :
    ∃ out i, mf.sweep pos.1 pos.2 = some out ∧ indexOf mf pos = some i ∧
      s.board.get? i = some Cell.Unknown ∧ c = out.toCell ∧
      s' = { board := s.board.set i out.toCell, flags := s.flags,
             unknowns := s.unknowns - 1 } := by
  unfold uncover at h
  split at h
  · simp at h
  next out hsweep =>
    split at h
    · simp at h
    next i hidx =>
      split at h
      next hget =>
        refine ⟨out, i, hsweep, hidx, hget, ?_, ?_⟩ <;>
          simp only [Prod.mk.injEq] at h <;> try exact h.2.symm
        have := h.1
        injection this with this
        exact this.symm
      · simp at h
      · simp at h

/-- Inversion of a successful plant_flag. -/
theorem plant_flag_ok {mf : Minefield} {s : Solver} {pos : Pos} {u : Unit}
    {s' : Solver} (h : plant_flag mf s pos = (.ok u, s')) :
    ∃ i, indexOf mf pos = some i ∧
      s.board.get? i = some Cell.Unknown ∧
      s' = { board := s.board.set i Cell.Flag, flags := s.flags + 1,
             unknowns := s.unknowns - 1 } := by
  unfold plant_flag at h
  split at h
  · simp at h
  next i hidx =>
    split at h
    next hget =>
      refine ⟨i, hidx, hget, ?_⟩
      simp only [Prod.mk.injEq] at h
      exact h.2.symm
    · simp at h
    · simp at h

/-- A successful uncover decrements the Unknown count by one and preserves
the Flag count; the Unknown count was positive. -/
theorem uncover_countUnknown {mf : Minefield} {s : Solver} {pos : Pos}
    {c : Cell} {s' : Solver} (h : uncover mf s pos = (.ok c, s')) :
    countUnknown s'.board + 1 = countUnknown s.board ∧
      countFlag s'.board = countFlag s.board ∧
      s'.board.length = s.board.length := by
  obtain ⟨out, i, _, _, hget, _, hs'⟩ := uncover_ok h
  subst hs'
  have h1 := countP_set_add (fun c => decide (c = Cell.Unknown)) s.board i
    out.toCell Cell.Unknown hget
  have h2 := countP_set_add (fun c => decide (c = Cell.Flag)) s.board i
    out.toCell Cell.Unknown hget
  have hne := toCell_ne_unknown out
  have hnf := toCell_ne_flag out
  constructor
  · simpa [countUnknown, hne] using h1
  constructor
  · simpa [countFlag, hnf] using h2
  · simp

/-- A successful plant_flag decrements the Unknown count by one and
increments the Flag count. -/
theorem plant_flag_countUnknown {mf : Minefield} {s : Solver} {pos : Pos}
    {u : Unit} {s' : Solver} (h : plant_flag mf s pos = (.ok u, s')) :
    countUnknown s'.board + 1 = countUnknown s.board ∧
      countFlag s'.board = countFlag s.board + 1 ∧
      s'.board.length = s.board.length := by
  obtain ⟨i, _, hget, hs'⟩ := plant_flag_ok h
  subst hs'
  have h1 := countP_set_add (fun c => decide (c = Cell.Unknown)) s.board i
    Cell.Flag Cell.Unknown hget
  have h2 := countP_set_add (fun c => decide (c = Cell.Flag)) s.board i
    Cell.Flag Cell.Unknown hget
  constructor
  · simpa [countUnknown] using h1
  constructor
  · simpa [countFlag] using h2
  · simp

/-- Every board cell is exactly one of Flag, revealed (Number or Mine), or
Unknown. -/
theorem counts_partition (b : List Cell) :
    countFlag b + revealedCount b + countUnknown b = b.length := by
  induction b with
  | nil => simp [countFlag, revealedCount, countNumber, countMine, countUnknown]
  | cons c tl ih =>
    simp only [countFlag, revealedCount, countNumber, countMine, countUnknown,
      List.countP_cons, List.length_cons] at *
    cases c <;> simp <;> omega

/-- C10: Solver::uncover is not atomic with respect to the oracle: the
sweep_cell call happens before the bounds check, so at an out-of-bounds
position the result is determined by the sweep outcome there.  When the
sweep succeeds, uncover returns the Bad index error with the board and the
counters unchanged (the returned state is the input state); when the sweep
itself fails, that failure is what uncover returns, showing that the oracle
was consulted before the position was validated. -/
theorem uncover_sweeps_before_bounds_check (mf : Minefield) (s : Solver)
    (pos : Pos) (hoob : indexOf mf pos = none) :
    (∀ out, mf.sweep pos.1 pos.2 = some out →
      uncover mf s pos = (.error "Bad index", s)) ∧
    (mf.sweep pos.1 pos.2 = none →
      uncover mf s pos = (.error "sweep_cell failed", s)) := by
  constructor
  · intro out hs
    unfold uncover
    rw [hs, hoob]
  · intro hs
    unfold uncover
    rw [hs]

theorem uncover_sweeps_before_bounds_check_witness :
    uncover mfTotal (Solver.new mfTotal) ((5 : Int), (5 : Int)) =
      (.error "Bad index", Solver.new mfTotal) ∧
    uncover mfTiny (Solver.new mfTiny) ((5 : Int), (5 : Int)) =
      (.error "sweep_cell failed", Solver.new mfTiny) :=
  ⟨(uncover_sweeps_before_bounds_check mfTotal (Solver.new mfTotal)
      ((5 : Int), (5 : Int)) (by decide)).1 (SweepOut.Number 0) (by decide),
   (uncover_sweeps_before_bounds_check mfTiny (Solver.new mfTiny)
      ((5 : Int), (5 : Int)) (by decide)).2 (by decide)⟩

/-- C6: the flags and unknowns counters equal the board-scan counts, the
accounting identity flags + revealed + unknowns = width * height holds, and
every successful uncover and plant_flag preserves all of this while
decrementing unknowns by exactly one, never below zero. -/
theorem counter_invariants (mf : Minefield) :
    (counterSync (Solver.new mf) ∧
      (0 ≤ mf.width → 0 ≤ mf.height →
        (((Solver.new mf).board.length : Int) = mf.width * mf.height))) ∧
    (∀ s : Solver, counterSync s →
      s.flags + (revealedCount s.board : Int) + s.unknowns =
        (s.board.length : Int)) ∧
    (∀ s pos c s', uncover mf s pos = (.ok c, s') →
      (counterSync s → counterSync s') ∧
      s'.unknowns = s.unknowns - 1 ∧
      (counterSync s → 0 ≤ s'.unknowns) ∧
      s'.board.length = s.board.length) ∧
    (∀ s pos u s', plant_flag mf s pos = (.ok u, s') →
      (counterSync s → counterSync s') ∧
      s'.unknowns = s.unknowns - 1 ∧ s'.flags = s.flags + 1 ∧
      (counterSync s → 0 ≤ s'.unknowns) ∧
      s'.board.length = s.board.length) := by
  refine ⟨⟨?_, ?_⟩, ?_, ?_, ?_⟩
  · constructor
    · simp only [Solver.new, countFlag]
      rw [List.countP_eq_zero.mpr]
      · simp
      · intro a ha
        simp only [List.mem_replicate] at ha
        simp [ha.2]
    · simp only [Solver.new, countUnknown]
      rw [List.countP_eq_length.mpr]
      · simp
      · intro a ha
        simp only [List.mem_replicate] at ha
        simp [ha.2]
  · intro hw hh
    simp only [Solver.new, List.length_replicate]
    rw [Int.toNat_of_nonneg (mul_nonneg hw hh)]
  · intro s hs
    have := counts_partition s.board
    rw [hs.1, hs.2]
    omega
  · intro s pos c s' h
    obtain ⟨hcu, hcf, hlen⟩ := uncover_countUnknown h
    obtain ⟨out, i, _, _, _, _, hs'⟩ := uncover_ok h
    have hfl : s'.flags = s.flags := by rw [hs']
    have hun : s'.unknowns = s.unknowns - 1 := by rw [hs']
    refine ⟨?_, hun, ?_, hlen⟩
    · intro hsync
      constructor
      · rw [hfl, hsync.1, hcf]
      · rw [hun, hsync.2]
        omega
    · intro hsync
      rw [hun, hsync.2]
      omega
  · intro s pos u s' h
    obtain ⟨hcu, hcf, hlen⟩ := plant_flag_countUnknown h
    obtain ⟨i, _, _, hs'⟩ := plant_flag_ok h
    have hfl : s'.flags = s.flags + 1 := by rw [hs']
    have hun : s'.unknowns = s.unknowns - 1 := by rw [hs']
    refine ⟨?_, hun, hfl, ?_, hlen⟩
    · intro hsync
      constructor
      · rw [hfl, hsync.1, hcf]
        push_cast
        ring
      · rw [hun, hsync.2]
        omega
    · intro hsync
      rw [hun, hsync.2]
      omega

theorem counter_invariants_witness :
    counterSync (Solver.new mfTiny) ∧
    uncover mfTiny (Solver.new mfTiny) ((0 : Int), (0 : Int)) =
      (.ok (Cell.Number 0), (⟨[Cell.Number 0], 0, 0⟩ : Solver)) ∧
    counterSync (⟨[Cell.Number 0], 0, 0⟩ : Solver) ∧
    (0 : Int) ≤ (⟨[Cell.Number 0], 0, 0⟩ : Solver).unknowns ∧
    plant_flag mfTotal (Solver.new mfTotal) ((0 : Int), (0 : Int)) =
      (.ok (), (⟨[Cell.Flag, Cell.Unknown, Cell.Unknown, Cell.Unknown],
        1, 3⟩ : Solver)) ∧
    counterSync (⟨[Cell.Flag, Cell.Unknown, Cell.Unknown, Cell.Unknown],
      1, 3⟩ : Solver) := by
  have h1 := (counter_invariants mfTiny).1.1
  have hu : uncover mfTiny (Solver.new mfTiny) ((0 : Int), (0 : Int)) =
      (.ok (Cell.Number 0), (⟨[Cell.Number 0], 0, 0⟩ : Solver)) := by
    decide
  have h2 := ((counter_invariants mfTiny).2.2.1 (Solver.new mfTiny)
    ((0 : Int), (0 : Int)) (Cell.Number 0) _ hu)
  have hp : plant_flag mfTotal (Solver.new mfTotal) ((0 : Int), (0 : Int)) =
      (.ok (), (⟨[Cell.Flag, Cell.Unknown, Cell.Unknown, Cell.Unknown],
        1, 3⟩ : Solver)) := by
    decide
  have h3 := ((counter_invariants mfTotal).2.2.2 (Solver.new mfTotal)
    ((0 : Int), (0 : Int)) () _ hp)
  exact ⟨h1, hu, h2.1 h1, h2.2.2.1 h1, hp,
    h3.1 (counter_invariants mfTotal).1.1⟩

/-- A board holding a Mine cell is never solved. -/
theorem solved_false_of_mine {mf : Minefield} {s : Solver}
    (hmem : Cell.Mine ∈ s.board) : solved mf s = false := by
  have hpos : 0 < countMine s.board := by
    rw [countMine, List.countP_pos_iff]
    exact ⟨Cell.Mine, hmem, by simp⟩
  simp only [solved, Bool.and_eq_false_iff]
  left
  right
  simpa using Nat.pos_iff_ne_zero.mp hpos

/-- Inversion of a propagation round that returned early: the early return
carries false with the untouched luck value, and the returned state holds a
Mine cell on its board. -/
theorem pa_ret {mf : Minefield} {luck : ℚ} {l : List Pos} {s : Solver}
    {next : List Pos} {ni : Bool} {b : Bool} {lq : ℚ} {s₁ : Solver}
    (h : processActive mf luck l s next ni = .ok (.ret b lq s₁)) :
    b = false ∧ lq = luck ∧ ∃ i, s₁.board.get? i = some Cell.Mine := by
  induction l generalizing s next ni with
  | nil => simp [processActive] at h
  | cons pos rest ih =>
    rw [processActive] at h
    split at h
    · exact absurd h (by simp)
    next cell hget =>
      cases cell with
      | Number mines =>
        simp only at h
        split at h
        · exact ih h
        · split at h
          · split at h
            · exact absurd h (by simp)
            · exact ih h
          · split at h
            · split at h
              · exact absurd h (by simp)
              · exact ih h
            · exact ih h
      | Unknown =>
        simp only at h
        split at h
        · exact absurd h (by simp)
        · exact ih h
      | Mine =>
        simp only at h
        injection h with h
        injection h with h1 h2 h3
        refine ⟨h1.symm, h2.symm, ?_⟩
        subst h3
        simp only [boardGet] at hget
        cases hidx : indexOf mf pos with
        | none => rw [hidx] at hget; simp at hget
        | some i =>
          rw [hidx] at hget
          exact ⟨i, hget⟩
      | Flag =>
        simp only at h
        exact ih h

/-- Setting an existing index makes the new value readable there. -/
theorem get?_set_self {b : List Cell} {i : Nat} {cOld : Cell}
    (h : b.get? i = some cOld) (c : Cell) : (b.set i c).get? i = some c := by
  rw [List.get?_set, if_pos rfl, h]
  rfl

/-- The first component of a successful solveLoop run equals solved of the
returned final state. -/
theorem sl_fst_solved {mf : Minefield} {fuel : Nat} {nx : List Pos} {luck : ℚ}
    {s : Solver} {b : Bool} {l : ℚ} {s' : Solver} {gh : Ghost}
    (h : solveLoop mf fuel nx luck s = .ok ((b, l), s', gh)) :
    b = solved mf s' := by
  induction fuel generalizing nx luck s b l s' gh with
  | zero => simp [solveLoop] at h
  | succ fuel ih =>
    rw [solveLoop] at h
    split at h
    · exact absurd h (by simp)
    case h_2 b₀ l₀ s₁ hpa =>
      simp only [Except.ok.injEq, Prod.mk.injEq] at h
      obtain ⟨⟨hb, _⟩, hs, _⟩ := h
      obtain ⟨hb₀, _, i, hmine⟩ := pa_ret hpa
      subst hs
      rw [← hb, hb₀, solved_false_of_mine (List.get?_mem hmine)]
    case h_3 s₁ next₁ newInfo hpa =>
      dsimp only at h
      split at h
      · simp only [Except.ok.injEq, Prod.mk.injEq] at h
        obtain ⟨⟨hb, _⟩, hs, _⟩ := h
        subst hs
        exact hb.symm
      · split at h
        · split at h
          · exact absurd h (by simp)
          · simp only [Except.ok.injEq, Prod.mk.injEq] at h
            obtain ⟨⟨hb, _⟩, hs, _⟩ := h
            subst hs
            exact hb.symm
        · split at h
          · exact ih h
          · split at h
            · exact absurd h (by simp)
            · split at h
              · exact absurd h (by simp)
              next cell s₂ hunc =>
                split at h
                next hcell =>
                  simp only [Except.ok.injEq, Prod.mk.injEq] at h
                  obtain ⟨⟨hb, _⟩, hs, _⟩ := h
                  obtain ⟨out, i, _, _, hget, hc, hs₂⟩ := uncover_ok hunc
                  have hmine : s₂.board.get? i = some Cell.Mine := by
                    rw [hs₂]
                    simp only
                    rw [get?_set_self hget, ← hc, hcell]
                  rw [← hb, ← hs, solved_false_of_mine (List.get?_mem hmine)]
                · split at h
                  · exact absurd h (by simp)
                  next r s₃ gh₂ hrec =>
                    simp only [Except.ok.injEq, Prod.mk.injEq] at h
                    obtain ⟨hr, hs, _⟩ := h
                    subst hs
                    exact ih (hr ▸ hrec)

/-- C1: whenever solve returns Ok((solved, luck)), the boolean equals the
value of solved() on the final board state: the final break returns it
directly, and both early Mine returns leave a Mine cell on the board, on
which solved() is false. -/
theorem solve_fst_eq_solved (mf : Minefield) (s : Solver) (b : Bool) (l : ℚ)
    (s' : Solver) (gh : Ghost) (h : solve mf s = .ok ((b, l), s', gh)) :
    b = solved mf s' :=
  sl_fst_solved h

theorem solve_fst_eq_solved_witness :
    solve mfTiny (Solver.new mfTiny) =
      .ok ((true, 1), (⟨[Cell.Number 0], 0, 0⟩ : Solver), Ghost.nil) ∧
    true = solved mfTiny (⟨[Cell.Number 0], 0, 0⟩ : Solver) :=
  ⟨by decide,
   solve_fst_eq_solved mfTiny (Solver.new mfTiny) true 1
     (⟨[Cell.Number 0], 0, 0⟩ : Solver) Ghost.nil (by decide)⟩

/-- C4: a detonation is delivered as a normal return value, never as an
error: sweeping a mine at a valid Unknown position makes uncover return
Ok(Mine) with the mine recorded on the board, and any successful solve run
whose final board holds a Mine cell returned false as its first component
(the mine cell recorded by the detonating sweep stays on the board, so this
covers every run in which some sweep detonated). -/
theorem detonation_is_normal_result (mf : Minefield) :
    (∀ (s : Solver) (pos : Pos) (i : Nat),
      mf.sweep pos.1 pos.2 = some SweepOut.Mine →
      indexOf mf pos = some i →
      s.board.get? i = some Cell.Unknown →
      uncover mf s pos =
        (.ok Cell.Mine,
          (⟨s.board.set i Cell.Mine, s.flags, s.unknowns - 1⟩ : Solver))) ∧
    (∀ (fuel : Nat) (nx : List Pos) (luck : ℚ) (s : Solver) (b : Bool)
      (l : ℚ) (s' : Solver) (gh : Ghost),
      solveLoop mf fuel nx luck s = .ok ((b, l), s', gh) →
      Cell.Mine ∈ s'.board → b = false) := by
  constructor
  · intro s pos i hsweep hidx hget
    have hget' : s.board[i]? = some Cell.Unknown := by
      rw [← List.get?_eq_getElem?]
      exact hget
    simp [uncover, hsweep, hidx, hget', SweepOut.toCell]
  · intro fuel nx luck s b l s' gh h hmem
    rw [sl_fst_solved h]
    exact solved_false_of_mine hmem

theorem detonation_is_normal_result_witness :
    uncover mfMine1 (Solver.new mfMine1) ((0 : Int), (0 : Int)) =
      (.ok Cell.Mine, (⟨[Cell.Mine], 0, 0⟩ : Solver)) ∧
    false = false :=
  ⟨(detonation_is_normal_result mfMine1).1 (Solver.new mfMine1)
      ((0 : Int), (0 : Int)) 0 (by decide) (by decide) (by decide),
   (detonation_is_normal_result mfMine1).2 1 [((0 : Int), (0 : Int))] 1
      (Solver.new mfMine1) false 1 (⟨[Cell.Mine], 0, 0⟩ : Solver) Ghost.nil
      (by decide) (by decide)⟩

/-- Polymorphic version of the set-counting identity. -/
theorem countP_set_add' {α : Type} (p : α → Bool) (b : List α) (i : Nat)
    (c cOld : α) (h : b.get? i = some cOld) :
    (b.set i c).countP p + (if p cOld then 1 else 0) =
      b.countP p + (if p c then 1 else 0) := by
  induction b generalizing i with
  | nil => simp at h
  | cons hd tl ih =>
    cases i with
    | zero =>
      simp only [List.get?] at h
      injection h with h
      subst h
      simp only [List.set, List.countP_cons]
      omega
    | succ n =>
      simp only [List.get?] at h
      have := ih n h
      simp only [List.set, List.countP_cons]
      omega

/-- What a completed placement loop guarantees: the mine budget was
nonnegative, exactly that many new mines were placed, the field length is
unchanged, and the value at the protected first-probe index is untouched. -/
theorem placeMines_ok {index : Nat} (rnds : List Nat) :
    ∀ (ml : Int) (field f : List Bool),
      placeMines index ml rnds field = some f →
      0 ≤ ml ∧ (countTrue f : Int) = countTrue field + ml ∧
      f.length = field.length ∧
      (∀ v, field.get? index = some v → f.get? index = some v) := by
  induction rnds with
  | nil =>
    intro ml field f h
    rw [placeMines] at h
    split at h
    next hml =>
      injection h with h
      subst h
      refine ⟨le_of_eq hml.symm, by simp [hml], rfl, fun v hv => hv⟩
    · simp at h
  | cons r rest ih =>
    intro ml field f h
    rw [placeMines] at h
    split at h
    next hml =>
      injection h with h
      subst h
      refine ⟨le_of_eq hml.symm, by simp [hml], rfl, fun v hv => hv⟩
    next hml =>
      split at h
      · simp at h
      next bv hbv =>
        split at h
        next hcond =>
          obtain ⟨hmlp, hcount, hlen, hpres⟩ := ih (ml - 1) (field.set r true) f h
          have hset : (field.set r true).countP id = field.countP id + 1 := by
            have hgen := countP_set_add' id field r true bv hbv
            rw [hcond.2] at hgen
            simpa using hgen
          refine ⟨by omega, ?_, by simpa using hlen, ?_⟩
          · rw [hcount]
            simp only [countTrue] at *
            omega
          · intro v hv
            refine hpres v ?_
            rw [List.get?_set_ne _ field hcond.1]
            exact hv
        · exact ih ml field f h

/-- C8: for the native minefield with lazy placement, any random sequence
that completes the placement loop places exactly number_of_mines mines
(duplicates are impossible in the boolean-grid representation: the count is
exact), leaves the first-probed index mine free, and therefore the very
first in-bounds sweep_cell call returns a neighbour count, never a Mine. -/
theorem first_sweep_never_detonates (w h m : Int) (randoms : List Nat)
    (c r : Int) (f : List Bool)
    (hin : ¬(c < 0 ∨ w ≤ c ∨ r < 0 ∨ h ≤ r))
    (hplace : placeMines (c + r * w).toNat m randoms
      (List.replicate (w * h).toNat false) = some f) :
    0 ≤ m ∧ (countTrue f : Int) = m ∧
    f.get? (c + r * w).toNat = some false ∧
    sweep_cell_first w h m randoms c r =
      some (Cell.Number (neighborsCount f w h c r)) := by
  push_neg at hin
  obtain ⟨hc0, hcw, hr0, hrh⟩ := hin
  obtain ⟨hm0, hcount, _, hpres⟩ := placeMines_ok randoms m _ f hplace
  have hw : 0 < w := lt_of_le_of_lt hc0 hcw
  have hrw : 0 ≤ r * w := mul_nonneg hr0 hw.le
  have hr1 : (r + 1) * w ≤ w * h := by
    rw [mul_comm w h]
    exact mul_le_mul_of_nonneg_right (by omega) hw.le
  have h1 : c + r * w < w * h := by
    have hsplit : (r + 1) * w = r * w + w := by ring
    omega
  have hidx : (c + r * w).toNat < (w * h).toNat := by omega
  have hrep : (List.replicate (w * h).toNat false).get? (c + r * w).toNat =
      some false := by
    rw [List.get?_eq_getElem?]
    simp [List.getElem?_replicate, hidx]
  have hat : f.get? (c + r * w).toNat = some false := hpres false hrep
  refine ⟨hm0, ?_, hat, ?_⟩
  · rw [hcount]
    simp [countTrue]
  · rw [sweep_cell_first]
    rw [if_neg (by omega)]
    simp only [hplace, hat]

theorem first_sweep_never_detonates_witness :
    (0 : Int) ≤ 2 ∧
    (countTrue [false, true, true, false] : Int) = 2 ∧
    ([false, true, true, false].get?
      (((0 : Int) + (0 : Int) * (2 : Int)).toNat)) = some false ∧
    sweep_cell_first 2 2 2 [1, 2] 0 0 =
      some (Cell.Number (neighborsCount [false, true, true, false] 2 2 0 0)) :=
  first_sweep_never_detonates 2 2 2 [1, 2] 0 0 [false, true, true, false]
    (by decide) (by decide)

/-- A successful uncover turns its target position non-Unknown and never
turns any position back to Unknown; the board length is preserved. -/
theorem uncover_boardGet_ne_unknown {mf : Minefield} {s : Solver} {pos : Pos}
    {c : Cell} {s' : Solver} (h : uncover mf s pos = (.ok c, s')) :
    (∀ q, boardGet mf s.board q ≠ some Cell.Unknown →
      boardGet mf s'.board q ≠ some Cell.Unknown) ∧
    boardGet mf s'.board pos ≠ some Cell.Unknown := by
  obtain ⟨out, i, _, hidx, hget, _, hs'⟩ := uncover_ok h
  subst hs'
  constructor
  · intro q hq
    simp only [boardGet] at hq ⊢
    cases hidxq : indexOf mf q with
    | none => simp
    | some j =>
      rw [hidxq] at hq
      simp only [Option.some_bind] at hq ⊢
      by_cases hij : i = j
      · subst hij
        rw [get?_set_self hget]
        simp [toCell_ne_unknown out]
      · rw [List.get?_set_ne _ _ hij]
        exact hq
  · simp only [boardGet, hidx, Option.some_bind]
    rw [get?_set_self hget]
    simp [toCell_ne_unknown out]

/-- After a successful bulk-reveal walk, every listed position is
non-Unknown, non-Unknown positions stay so, and the length is kept. -/
theorem uncoverAllGo_spec (mf : Minefield) (l : List Pos) :
    ∀ (s s₂ : Solver), uncoverAllGo mf l s = .ok s₂ →
      (∀ pos ∈ l, boardGet mf s₂.board pos ≠ some Cell.Unknown) ∧
      (∀ pos, boardGet mf s.board pos ≠ some Cell.Unknown →
        boardGet mf s₂.board pos ≠ some Cell.Unknown) ∧
      s₂.board.length = s.board.length := by
  induction l with
  | nil =>
    intro s s₂ h
    rw [uncoverAllGo] at h
    injection h with h
    subst h
    exact ⟨by simp, fun _ hp => hp, rfl⟩
  | cons pos rest ih =>
    intro s s₂ h
    rw [uncoverAllGo] at h
    split at h
    next hget =>
      split at h
      · exact absurd h (by simp)
      next cl s' hunc =>
        obtain ⟨hrest, hpres, hlen⟩ := ih s' s₂ h
        obtain ⟨hkeep, hposne⟩ := uncover_boardGet_ne_unknown hunc
        obtain ⟨_, _, _, _, _, _, hs'⟩ := uncover_ok hunc
        refine ⟨?_, ?_, ?_⟩
        · intro q hq
          rcases List.mem_cons.mp hq with hq | hq
          · subst hq
            exact hpres q hposne
          · exact hrest q hq
        · intro q hq
          exact hpres q (hkeep q hq)
        · rw [hlen, hs']
          simp
    next hget =>
      obtain ⟨hrest, hpres, hlen⟩ := ih s s₂ h
      refine ⟨?_, hpres, hlen⟩
      intro q hq
      rcases List.mem_cons.mp hq with hq | hq
      · subst hq
        exact hpres q hget
      · exact hrest q hq

/-- Every valid board index is reached by the column-major scan. -/
theorem colMajor_covers (mf : Minefield) (hw : 0 ≤ mf.width)
    (hh : 0 ≤ mf.height) (i : Nat)
    (hi : i < (mf.width * mf.height).toNat) :
    ∃ pos ∈ colMajorPositions mf, indexOf mf pos = some i := by
  set wn := mf.width.toNat with hwn
  set hn := mf.height.toNat with hhn
  have hsize : (mf.width * mf.height).toNat = wn * hn := by
    rw [hwn, hhn, ← Int.toNat_of_nonneg hw, ← Int.toNat_of_nonneg hh,
      ← Nat.cast_mul, Int.toNat_natCast, Int.toNat_natCast, Int.toNat_natCast]
  rw [hsize] at hi
  have hwpos : 0 < wn := by
    rcases Nat.eq_zero_or_pos wn with h0 | h0
    · rw [h0] at hi
      simp at hi
    · exact h0
  have hmod : i % wn < wn := Nat.mod_lt _ hwpos
  have hdiv : i / wn < hn := by
    rw [Nat.div_lt_iff_lt_mul hwpos, mul_comm]
    exact hi
  refine ⟨((i % wn : Nat), (i / wn : Nat)), ?_, ?_⟩
  · rw [colMajorPositions, List.mem_flatMap]
    refine ⟨(i % wn : Nat), ?_, ?_⟩
    · rw [intRange, List.mem_map]
      exact ⟨i % wn, List.mem_range.mpr (by rw [← hwn]; exact hmod), rfl⟩
    · rw [List.mem_map]
      refine ⟨((i / wn : Nat) : Int), ?_, rfl⟩
      rw [intRange, List.mem_map]
      exact ⟨i / wn, List.mem_range.mpr (by rw [← hhn]; exact hdiv), rfl⟩
  · have hwcast : mf.width = ((wn : Nat) : Int) := (Int.toNat_of_nonneg hw).symm
    have hhcast : mf.height = ((hn : Nat) : Int) := (Int.toNat_of_nonneg hh).symm
    have hcond : ¬(((i % wn : Nat) : Int) < 0 ∨ mf.width ≤ ((i % wn : Nat) : Int) ∨
        ((i / wn : Nat) : Int) < 0 ∨ mf.height ≤ ((i / wn : Nat) : Int)) := by
      push_neg
      refine ⟨Int.natCast_nonneg _, ?_, Int.natCast_nonneg _, ?_⟩
      · rw [hwcast]
        exact_mod_cast hmod
      · rw [hhcast]
        exact_mod_cast hdiv
    rw [indexOf, if_neg hcond]
    congr 1
    rw [hwcast, ← Nat.cast_mul, ← Nat.cast_add, Int.toNat_natCast]
    exact Nat.mod_add_div' i wn

/-- A successful bulk reveal leaves no Unknown cell on a full-size board. -/
theorem uncoverAllUnknown_clears (mf : Minefield) (s s₂ : Solver)
    (hw : 0 ≤ mf.width) (hh : 0 ≤ mf.height)
    (hlen : s.board.length = (mf.width * mf.height).toNat)
    (h : uncoverAllUnknown mf s = .ok s₂) : countUnknown s₂.board = 0 := by
  obtain ⟨hall, _, hlen₂⟩ :=
    uncoverAllGo_spec mf (colMajorPositions mf) s s₂ h
  rw [countUnknown, List.countP_eq_zero]
  intro c hc hcu
  have hceq : c = Cell.Unknown := by simpa using hcu
  subst hceq
  obtain ⟨j, hj⟩ := List.mem_iff_get?.mp hc
  have hjlt : j < s₂.board.length := (List.get?_eq_some.mp hj).1
  have hjlt' : j < (mf.width * mf.height).toNat := by
    rw [hlen₂, hlen] at hjlt
    exact hjlt
  obtain ⟨pos, hmem, hpos⟩ := colMajor_covers mf hw hh j hjlt'
  have hbg : boardGet mf s₂.board pos = some Cell.Unknown := by
    rw [boardGet, hpos, Option.some_bind]
    exact hj
  exact hall pos hmem hbg

/-- C3: when a propagation round ends with all mines flagged while Unknown
cells remain, the very next thing solve does is reveal every remaining
Unknown cell through the minefield and stop: the returned ghost data is
empty, witnessing that the probability engine is not invoked in that round
nor in any later one, and the final board has no Unknown cell left. -/
theorem flags_complete_bulk_reveal (mf : Minefield) (fuel : Nat)
    (nextIn : List Pos) (luck : ℚ) (s s₁ : Solver) (next₁ : List Pos)
    (ni : Bool) (s₂ : Solver)
    (hpa : processActive mf luck nextIn s [] false = .ok (.cont s₁ next₁ ni))
    (hne : ¬s₁.unknowns = 0)
    (hflags : mf.number_of_mines - s₁.flags = 0)
    (hw : 0 ≤ mf.width) (hh : 0 ≤ mf.height)
    (hlen : s₁.board.length = (mf.width * mf.height).toNat)
    (hbulk : uncoverAllUnknown mf s₁ = .ok s₂) :
    solveLoop mf (fuel + 1) nextIn luck s =
      .ok ((solved mf s₂, luck), s₂, Ghost.nil) ∧
    countUnknown s₂.board = 0 := by
  constructor
  · rw [solveLoop, hpa]
    dsimp only
    rw [if_neg hne]
    rw [if_pos hflags, hbulk]
  · exact uncoverAllUnknown_clears mf s₁ s₂ hw hh hlen hbulk

theorem flags_complete_bulk_reveal_witness :
    solveLoop mfFlagHalt 1 [((0 : Int), (0 : Int))] 1
        (⟨[Cell.Number 1, Cell.Unknown, Cell.Unknown], 0, 2⟩ : Solver) =
      .ok ((solved mfFlagHalt
          (⟨[Cell.Number 1, Cell.Flag, Cell.Number 0], 1, 0⟩ : Solver), 1),
        (⟨[Cell.Number 1, Cell.Flag, Cell.Number 0], 1, 0⟩ : Solver),
        Ghost.nil) ∧
    countUnknown [Cell.Number 1, Cell.Flag, Cell.Number 0] = 0 :=
  flags_complete_bulk_reveal mfFlagHalt 0 [((0 : Int), (0 : Int))] 1
    (⟨[Cell.Number 1, Cell.Unknown, Cell.Unknown], 0, 2⟩ : Solver)
    (⟨[Cell.Number 1, Cell.Flag, Cell.Unknown], 1, 1⟩ : Solver)
    [] true (⟨[Cell.Number 1, Cell.Flag, Cell.Number 0], 1, 0⟩ : Solver)
    (by decide) (by decide) (by decide) (by decide) (by decide) (by decide)
    (by decide)

/-! ## No function below the solve loop produces the fuel error -/

theorem uncover_error_ne {mf : Minefield} {s : Solver} {pos : Pos}
    {e : String} {s' : Solver} (h : uncover mf s pos = (.error e, s')) :
    e ≠ "OUT_OF_FUEL" := by
  unfold uncover at h
  split at h
  · simp only [Prod.mk.injEq] at h
    obtain ⟨h1, _⟩ := h
    injection h1 with h1
    subst h1
    decide
  · split at h
    · simp only [Prod.mk.injEq] at h
      obtain ⟨h1, _⟩ := h
      injection h1 with h1
      subst h1
      decide
    · split at h
      · simp at h
      · simp only [Prod.mk.injEq] at h
        obtain ⟨h1, _⟩ := h
        injection h1 with h1
        subst h1
        decide
      · simp only [Prod.mk.injEq] at h
        obtain ⟨h1, _⟩ := h
        injection h1 with h1
        subst h1
        decide

theorem plant_flag_error_ne {mf : Minefield} {s : Solver} {pos : Pos}
    {e : String} {s' : Solver} (h : plant_flag mf s pos = (.error e, s')) :
    e ≠ "OUT_OF_FUEL" := by
  unfold plant_flag at h
  split at h
  · simp only [Prod.mk.injEq] at h
    obtain ⟨h1, _⟩ := h
    injection h1 with h1
    subst h1
    decide
  · split at h
    · simp at h
    · simp only [Prod.mk.injEq] at h
      obtain ⟨h1, _⟩ := h
      injection h1 with h1
      subst h1
      decide
    · simp only [Prod.mk.injEq] at h
      obtain ⟨h1, _⟩ := h
      injection h1 with h1
      subst h1
      decide

theorem uncoverList_error_ne {mf : Minefield} (ps : List Pos) :
    ∀ {s : Solver} {next : List Pos} {e : String},
      uncoverList mf ps s next = .error e → e ≠ "OUT_OF_FUEL" := by
  induction ps with
  | nil => intro s next e h; simp [uncoverList] at h
  | cons p rest ih =>
    intro s next e h
    rw [uncoverList] at h
    split at h
    next e' s'' hu =>
      injection h with h
      subst h
      exact uncover_error_ne hu
    · exact ih h

theorem flagList_error_ne {mf : Minefield} (ps : List Pos) :
    ∀ {s : Solver} {e : String},
      flagList mf ps s = .error e → e ≠ "OUT_OF_FUEL" := by
  induction ps with
  | nil => intro s e h; simp [flagList] at h
  | cons p rest ih =>
    intro s e h
    rw [flagList] at h
    split at h
    next e' s'' hu =>
      injection h with h
      subst h
      exact plant_flag_error_ne hu
    · exact ih h

theorem pa_error_ne {mf : Minefield} {luck : ℚ} (l : List Pos) :
    ∀ {s : Solver} {next : List Pos} {ni : Bool} {e : String},
      processActive mf luck l s next ni = .error e → e ≠ "OUT_OF_FUEL" := by
  induction l with
  | nil => intro s next ni e h; simp [processActive] at h
  | cons pos rest ih =>
    intro s next ni e h
    rw [processActive] at h
    split at h
    · injection h with h
      subst h
      decide
    next cell hget =>
      cases cell with
      | Number mines =>
        simp only at h
        split at h
        · exact ih h
        · split at h
          · split at h
            next hu =>
              injection h with h
              subst h
              exact uncoverList_error_ne _ hu
            · exact ih h
          · split at h
            · split at h
              next hu =>
                injection h with h
                subst h
                exact flagList_error_ne _ hu
              · exact ih h
            · exact ih h
      | Unknown =>
        simp only at h
        split at h
        next e' s'' hu =>
          injection h with h
          subst h
          exact uncover_error_ne hu
        · exact ih h
      | Mine => simp only at h; exact absurd h (by simp)
      | Flag => simp only at h; exact ih h

theorem uncoverAllGo_error_ne {mf : Minefield} (l : List Pos) :
    ∀ {s : Solver} {e : String},
      uncoverAllGo mf l s = .error e → e ≠ "OUT_OF_FUEL" := by
  induction l with
  | nil => intro s e h; simp [uncoverAllGo] at h
  | cons pos rest ih =>
    intro s e h
    rw [uncoverAllGo] at h
    split at h
    · split at h
      next hu =>
        injection h with h
        subst h
        exact uncover_error_ne hu
      · exact ih h
    · exact ih h

theorem sumAt_error_ne {probs : Probs} (ps : List Pos) {e : String}
    (h : sumAt probs ps = .error e) : e ≠ "OUT_OF_FUEL" := by
  induction ps with
  | nil => simp [sumAt] at h
  | cons p rest ih =>
    rw [sumAt] at h
    split at h
    · injection h with h
      subst h
      decide
    · simp only [Except.map] at h
      split at h
      next heq =>
        injection h with h
        subst h
        exact ih heq
      · simp at h

theorem relaxCell_error_ne {mf : Minefield} {b : List Cell}
    {st : Probs × ℚ × Bool} {pos : Pos} {e : String}
    (h : relaxCell mf b st pos = .error e) : e ≠ "OUT_OF_FUEL" := by
  rw [relaxCell] at h
  cases hbg : boardGet mf b pos with
  | none =>
    rw [hbg] at h
    dsimp only at h
    injection h with h
    subst h
    decide
  | some cell =>
    rw [hbg] at h
    cases cell with
    | Number mines =>
      dsimp only at h
      split at h
      next heq =>
        injection h with h
        subst h
        exact sumAt_error_ne _ heq
      · split at h <;> simp at h
    | Unknown => exact absurd h (by simp)
    | Flag => exact absurd h (by simp)
    | Mine => exact absurd h (by simp)

theorem relaxPass_error_ne {mf : Minefield} {b : List Cell} (l : List Pos) :
    ∀ {st : Probs × ℚ × Bool} {e : String},
      relaxPass mf b l st = .error e → e ≠ "OUT_OF_FUEL" := by
  induction l with
  | nil => intro st e h; simp [relaxPass] at h
  | cons pos rest ih =>
    intro st e h
    rw [relaxPass] at h
    split at h
    next heq =>
      injection h with h
      subst h
      exact relaxCell_error_ne heq
    · exact ih h

theorem relaxLoop_error_ne {mf : Minefield} {b : List Cell}
    {active : List Pos} {rm : Int} (n : Nat) :
    ∀ {probs : Probs} {sums : List ℚ} {e : String},
      relaxLoop mf b active rm n probs sums = .error e →
      e ≠ "OUT_OF_FUEL" := by
  induction n with
  | zero => intro probs sums e h; simp [relaxLoop] at h
  | succ n ih =>
    intro probs sums e h
    rw [relaxLoop] at h
    split at h
    next heq =>
      injection h with h
      subst h
      rw [relaxIterOnce] at heq
      split at heq
      next heq' =>
        injection heq with heq
        subst heq
        exact relaxPass_error_ne _ heq'
      · simp at heq
    · split at h
      · simp at h
      · exact ih h

theorem selectGuess_error_ne {mf : Minefield} {b : List Cell}
    {unknowns : Int} {active : List Pos} {rm : Int} {e : String}
    (h : selectGuess mf b unknowns active rm = .error e) :
    e ≠ "OUT_OF_FUEL" := by
  rw [selectGuess] at h
  split at h
  next heq =>
    injection h with h
    subst h
    rw [relaxedProbs] at heq
    exact relaxLoop_error_ne _ heq
  next probs sums heq =>
    split at h
    next heq' =>
      injection h with h
      subst h
      rw [chooseGuess] at heq'
      split at heq'
      · split at heq'
        · split at heq'
          · simp at heq'
          · injection heq' with heq'
            subst heq'
            decide
        · simp at heq'
      · split at heq'
        · simp at heq'
        · injection heq' with heq'
          subst heq'
          decide
    · simp at h

/-! ## The Unknown count decreases in every productive step -/

theorem uncoverList_count {mf : Minefield} (ps : List Pos) :
    ∀ {s : Solver} {next : List Pos} {s' : Solver} {next' : List Pos},
      uncoverList mf ps s next = .ok (s', next') →
      countUnknown s'.board ≤ countUnknown s.board ∧
      (ps ≠ [] → countUnknown s'.board < countUnknown s.board) := by
  induction ps with
  | nil =>
    intro s next s' next' h
    rw [uncoverList] at h
    injection h with h
    rw [Prod.mk.injEq] at h
    exact ⟨le_of_eq (by rw [h.1]), fun hne => absurd rfl hne⟩
  | cons p rest ih =>
    intro s next s' next' h
    rw [uncoverList] at h
    split at h
    · simp at h
    next c s₁ hu =>
      obtain ⟨hle, _⟩ := ih h
      obtain ⟨hdec, _, _⟩ := uncover_countUnknown hu
      exact ⟨by omega, fun _ => by omega⟩

theorem flagList_count {mf : Minefield} (ps : List Pos) :
    ∀ {s : Solver} {s' : Solver},
      flagList mf ps s = .ok s' →
      countUnknown s'.board ≤ countUnknown s.board ∧
      (ps ≠ [] → countUnknown s'.board < countUnknown s.board) := by
  induction ps with
  | nil =>
    intro s s' h
    rw [flagList] at h
    injection h with h
    exact ⟨le_of_eq (by rw [h]), fun hne => absurd rfl hne⟩
  | cons p rest ih =>
    intro s s' h
    rw [flagList] at h
    split at h
    · simp at h
    next u s₁ hu =>
      obtain ⟨hle, _⟩ := ih h
      obtain ⟨hdec, _, _⟩ := plant_flag_countUnknown hu
      exact ⟨by omega, fun _ => by omega⟩

/-- The Unknown positions of a neighbour snapshot count its Unknown
entries. -/
theorem unknownPositions_length (ns : List (Pos × Cell)) :
    (unknownPositions ns).length =
      ns.countP fun pc => decide (pc.2 = Cell.Unknown) := by
  induction ns with
  | nil => simp [unknownPositions]
  | cons pc rest ih =>
    rw [unknownPositions] at *
    rw [List.filterMap_cons, List.countP_cons]
    split
    next heq =>
      have : ¬pc.2 = Cell.Unknown := by
        by_contra hu
        rw [if_pos hu] at heq
        simp at heq
      simp [ih, this]
    next p heq =>
      have : pc.2 = Cell.Unknown := by
        by_cases hu : pc.2 = Cell.Unknown
        · exact hu
        · rw [if_neg hu] at heq
          simp at heq
      simp [ih, this]

/-- A propagation round never increases the number of Unknown cells, and a
round that turns the productivity flag on strictly decreases it. -/
theorem pa_cont_count {mf : Minefield} {luck : ℚ} (l : List Pos) :
    ∀ {s : Solver} {next : List Pos} {ni : Bool} {s₁ : Solver}
      {n₁ : List Pos} {ni' : Bool},
      processActive mf luck l s next ni = .ok (.cont s₁ n₁ ni') →
      countUnknown s₁.board ≤ countUnknown s.board ∧
      (ni = false → ni' = true →
        countUnknown s₁.board < countUnknown s.board) := by
  induction l with
  | nil =>
    intro s next ni s₁ n₁ ni' h
    rw [processActive] at h
    injection h with h
    injection h with h1 h2 h3
    subst h1
    subst h3
    exact ⟨le_refl _, fun hf ht => absurd (hf ▸ ht) (by simp)⟩
  | cons pos rest ih =>
    intro s next ni s₁ n₁ ni' h
    rw [processActive] at h
    split at h
    · simp at h
    next cell hget =>
      cases cell with
      | Number mines =>
        simp only at h
        split at h
        next hu0 => exact ih h
        next hu0 =>
          have hne : unknownPositions (neighborsOf mf s.board pos) ≠ [] := by
            intro hnil
            have hlen := unknownPositions_length (neighborsOf mf s.board pos)
            rw [hnil] at hlen
            simp only [List.length_nil] at hlen
            exact hu0 (by rw [← hlen]; simp)
          split at h
          next hmf =>
            split at h
            · simp at h
            next s' next' hul =>
              obtain ⟨hle₁, hlt₁⟩ := uncoverList_count _ hul
              obtain ⟨hle₂, _⟩ := ih h
              exact ⟨by omega, fun _ _ => by have := hlt₁ hne; omega⟩
          next hmf =>
            split at h
            next hcnt2 =>
              split at h
              · simp at h
              next s' hfl =>
                obtain ⟨hle₁, hlt₁⟩ := flagList_count _ hfl
                obtain ⟨hle₂, _⟩ := ih h
                exact ⟨by omega, fun _ _ => by have := hlt₁ hne; omega⟩
            next hcnt2 => exact ih h
      | Unknown =>
        simp only at h
        split at h
        · simp at h
        next c s' hu =>
          obtain ⟨hdec, _, _⟩ := uncover_countUnknown hu
          obtain ⟨hle, _⟩ := ih h
          exact ⟨by omega, fun _ _ => by omega⟩
      | Mine =>
        simp only at h
        exact absurd h (by simp)
      | Flag =>
        simp only at h
        exact ih h

/-! ## Termination: the relaxation cap and fuel sufficiency -/

theorem relaxLoop_sums {mf : Minefield} {b : List Cell} {active : List Pos}
    {rm : Int} (n : Nat) :
    ∀ {probs : Probs} {sums : List ℚ} {p : Probs} {sums' : List ℚ},
      relaxLoop mf b active rm n probs sums = .ok (p, sums') →
      sums'.length ≤ sums.length + n := by
  induction n with
  | zero =>
    intro probs sums p sums' h
    rw [relaxLoop] at h
    injection h with h
    rw [Prod.mk.injEq] at h
    rw [← h.2]
    omega
  | succ n ih =>
    intro probs sums p sums' h
    rw [relaxLoop] at h
    split at h
    · simp at h
    next probs₁ maxc inf hiter =>
      dsimp only at h
      split at h
      · injection h with h
        rw [Prod.mk.injEq] at h
        rw [← h.2]
        simp only [List.length_append, List.length_cons, List.length_nil]
        omega
      · have := ih h
        simp only [List.length_append, List.length_cons, List.length_nil]
          at this
        omega

theorem selectGuess_sums {mf : Minefield} {b : List Cell} {unknowns : Int}
    {active : List Pos} {rm : Int} {choice : Pos × ℚ} {sums : List ℚ}
    (h : selectGuess mf b unknowns active rm = .ok (choice, sums)) :
    sums.length ≤ 100 := by
  rw [selectGuess] at h
  split at h
  · simp at h
  next probs₀ sums₀ hrp =>
    split at h
    · simp at h
    next ch hcg =>
      injection h with h
      rw [Prod.mk.injEq] at h
      rw [← h.2]
      rw [relaxedProbs] at hrp
      have := relaxLoop_sums 100 hrp
      simpa using this

theorem sl_fuel {mf : Minefield} (fuel : Nat) :
    ∀ {nx : List Pos} {luck : ℚ} {s : Solver},
      countUnknown s.board < fuel →
      solveLoop mf fuel nx luck s ≠ .error "OUT_OF_FUEL" := by
  induction fuel with
  | zero => intro nx luck s hlt; exact absurd hlt (by omega)
  | succ fuel ih =>
    intro nx luck s hlt h
    rw [solveLoop] at h
    split at h
    next e hpa =>
      injection h with h
      exact pa_error_ne nx hpa h
    · exact absurd h (by simp)
    case h_3 s₁ next₁ newInfo hpa =>
      obtain ⟨hle, hstrict⟩ := pa_cont_count nx hpa
      dsimp only at h
      split at h
      · exact absurd h (by simp)
      · split at h
        · split at h
          next e₂ hua =>
            injection h with h
            rw [uncoverAllUnknown] at hua
            exact uncoverAllGo_error_ne (colMajorPositions mf) hua h
          · exact absurd h (by simp)
        · split at h
          next hni =>
            have := hstrict rfl hni
            exact ih (by omega) h
          · split at h
            next e₃ hsg =>
              injection h with h
              exact selectGuess_error_ne hsg h
            next choice sums hsg =>
              split at h
              next e₄ s₂ hunc =>
                injection h with h
                exact uncover_error_ne hunc h
              next cell s₂ hunc =>
                split at h
                · exact absurd h (by simp)
                · split at h
                  next e₅ hrec =>
                    injection h with h
                    subst h
                    obtain ⟨hdec, _, _⟩ := uncover_countUnknown hunc
                    exact ih (by omega) hrec
                  · exact absurd h (by simp)

theorem sl_relax_bound {mf : Minefield} (fuel : Nat) :
    ∀ {nx : List Pos} {luck : ℚ} {s : Solver} {r : Bool × ℚ} {s' : Solver}
      {gh : Ghost},
      solveLoop mf fuel nx luck s = .ok (r, s', gh) →
      ∀ rt ∈ gh.relax, rt.sums.length ≤ 100 := by
  induction fuel with
  | zero => intro nx luck s r s' gh h; simp [solveLoop] at h
  | succ fuel ih =>
    intro nx luck s r s' gh h
    rw [solveLoop] at h
    split at h
    · exact absurd h (by simp)
    case h_2 b₀ l₀ s₁ hpa =>
      simp only [Except.ok.injEq, Prod.mk.injEq] at h
      obtain ⟨_, _, hgh⟩ := h
      intro rt hrt
      rw [← hgh] at hrt
      simp [Ghost.nil] at hrt
    case h_3 s₁ next₁ newInfo hpa =>
      dsimp only at h
      split at h
      · simp only [Except.ok.injEq, Prod.mk.injEq] at h
        obtain ⟨_, _, hgh⟩ := h
        intro rt hrt
        rw [← hgh] at hrt
        simp [Ghost.nil] at hrt
      · split at h
        · split at h
          · exact absurd h (by simp)
          · simp only [Except.ok.injEq, Prod.mk.injEq] at h
            obtain ⟨_, _, hgh⟩ := h
            intro rt hrt
            rw [← hgh] at hrt
            simp [Ghost.nil] at hrt
        · split at h
          · exact ih h
          · split at h
            · exact absurd h (by simp)
            next choice sums hsg =>
              split at h
              · exact absurd h (by simp)
              next cell s₂ hunc =>
                split at h
                · simp only [Except.ok.injEq, Prod.mk.injEq] at h
                  obtain ⟨_, _, hgh⟩ := h
                  intro rt hrt
                  rw [← hgh] at hrt
                  simp only [Ghost.push, Ghost.nil, List.mem_cons,
                    List.not_mem_nil, or_false] at hrt
                  rw [hrt]
                  exact selectGuess_sums hsg
                · split at h
                  · exact absurd h (by simp)
                  next r₂ s₃ gh₂ hrec =>
                    simp only [Except.ok.injEq, Prod.mk.injEq] at h
                    obtain ⟨_, _, hgh⟩ := h
                    intro rt hrt
                    rw [← hgh] at hrt
                    simp only [Ghost.push, List.mem_cons] at hrt
                    rcases hrt with hrt | hrt
                    · rw [hrt]
                      exact selectGuess_sums hsg
                    · exact ih hrec rt hrt

/-- C9: solve always reaches a terminal state: with fuel one more than the
number of Unknown cells the loop never runs out of fuel, every
probability-relaxation invocation recorded by a run performs at most 100
iterations, and every propagation round that reports new information
strictly decreases the number of Unknown cells on the board. -/
theorem solve_terminates (mf : Minefield) (s : Solver) :
    solve mf s ≠ .error "OUT_OF_FUEL" ∧
    (∀ rt, rt ∈ (ghostOf (solve mf s)).relax → rt.sums.length ≤ 100) ∧
    (∀ luck l s₀ next s₁ n₁,
      processActive mf luck l s₀ next false = .ok (.cont s₁ n₁ true) →
      countUnknown s₁.board < countUnknown s₀.board) := by
  refine ⟨?_, ?_, ?_⟩
  · rw [solve]
    exact sl_fuel (countUnknown s.board + 1) (Nat.lt_succ_self _)
  · intro rt hrt
    cases hres : solve mf s with
    | error e =>
      rw [hres] at hrt
      simp [ghostOf, Ghost.nil] at hrt
    | ok v =>
      obtain ⟨r, s', gh⟩ := v
      rw [hres] at hrt
      rw [solve] at hres
      exact sl_relax_bound _ hres rt (by simpa [ghostOf] using hrt)
  · intro luck l s₀ next s₁ n₁ h
    exact (pa_cont_count l h).2 rfl rfl

set_option maxRecDepth 100000 in
/-- Witness for C9 at concrete inputs: the 1 by 1 run does not run out of
fuel, the first relaxation trace of the 6 by 1 luck run has one iteration,
and the first propagation round of the 3 by 1 flag-halt run strictly
decreases the Unknown count from 3 to 2. -/
theorem solve_terminates_witness :
    solve mfTiny (Solver.new mfTiny) ≠ .error "OUT_OF_FUEL" ∧
    (⟨8, [(0 : ℚ)]⟩ : RelaxTrace).sums.length ≤ 100 ∧
    countUnknown [Cell.Number 1, Cell.Unknown, Cell.Unknown] <
      countUnknown (Solver.new mfFlagHalt).board := by
  refine ⟨(solve_terminates mfTiny (Solver.new mfTiny)).1, ?_, ?_⟩
  · exact (solve_terminates mfLuck (Solver.new mfLuck)).2.1
      ⟨8, [(0 : ℚ)]⟩ (by decide)
  · exact (solve_terminates mfFlagHalt (Solver.new mfFlagHalt)).2.2
      1 [((0 : Int), (0 : Int))]
      (Solver.new mfFlagHalt) []
      (⟨[Cell.Number 1, Cell.Unknown, Cell.Unknown], 0, 2⟩ : Solver)
      [((0 : Int), (0 : Int))] (by decide)

/-! ## The luck chain -/

theorem sl_luckchain {mf : Minefield} (fuel : Nat) :
    ∀ {nx : List Pos} {luck : ℚ} {s : Solver} {r : Bool × ℚ} {s' : Solver}
      {gh : Ghost},
      solveLoop mf fuel nx luck s = .ok (r, s', gh) →
      luckChainB luck gh.guesses = true ∧ (gh.guesses = [] → r.2 = luck) := by
  induction fuel with
  | zero => intro nx luck s r s' gh h; simp [solveLoop] at h
  | succ fuel ih =>
    intro nx luck s r s' gh h
    rw [solveLoop] at h
    split at h
    · exact absurd h (by simp)
    case h_2 b₀ l₀ s₁ hpa =>
      simp only [Except.ok.injEq, Prod.mk.injEq] at h
      obtain ⟨hr, _, hgh⟩ := h
      obtain ⟨_, hl, _⟩ := pa_ret hpa
      rw [← hgh]
      exact ⟨rfl, fun _ => by rw [← hr]; exact hl⟩
    case h_3 s₁ next₁ newInfo hpa =>
      dsimp only at h
      split at h
      · simp only [Except.ok.injEq, Prod.mk.injEq] at h
        obtain ⟨hr, _, hgh⟩ := h
        rw [← hgh]
        exact ⟨rfl, fun _ => by rw [← hr]⟩
      · split at h
        · split at h
          · exact absurd h (by simp)
          · simp only [Except.ok.injEq, Prod.mk.injEq] at h
            obtain ⟨hr, _, hgh⟩ := h
            rw [← hgh]
            exact ⟨rfl, fun _ => by rw [← hr]⟩
        · split at h
          · exact ih h
          · split at h
            · exact absurd h (by simp)
            next choice sums hsg =>
              split at h
              · exact absurd h (by simp)
              next cell s₂ hunc =>
                split at h
                · simp only [Except.ok.injEq, Prod.mk.injEq] at h
                  obtain ⟨hr, _, hgh⟩ := h
                  rw [← hgh]
                  refine ⟨?_, fun hc => by simp [Ghost.push, Ghost.nil] at hc⟩
                  simp [Ghost.push, Ghost.nil, luckChainB]
                · split at h
                  · exact absurd h (by simp)
                  next r₂ s₃ gh₂ hrec =>
                    simp only [Except.ok.injEq, Prod.mk.injEq] at h
                    obtain ⟨hr, _, hgh⟩ := h
                    obtain ⟨hch, _⟩ := ih hrec
                    rw [← hgh]
                    refine ⟨?_, fun hc => by simp [Ghost.push] at hc⟩
                    simp only [Ghost.push, luckChainB, Bool.and_eq_true,
                      beq_iff_eq]
                    exact ⟨trivial, hch⟩

/-- If every chosen probability lies in [0,1], a multiplicative luck chain
started at a nonnegative value is non-increasing. -/
theorem luckChain_noninc (gs : List GuessCtx) :
    ∀ {l : ℚ}, 0 ≤ l → luckChainB l gs = true →
      (∀ g ∈ gs, 0 ≤ g.chosen.2 ∧ g.chosen.2 ≤ 1) →
      nonincB l (gs.map fun g => g.luckAfter) = true := by
  induction gs with
  | nil => intro l _ _ _; simp [nonincB]
  | cons g gs ih =>
    intro l hl hchain hp
    rw [luckChainB] at hchain
    simp only [Bool.and_eq_true, beq_iff_eq] at hchain
    obtain ⟨heq, hrest⟩ := hchain
    obtain ⟨hp0, hp1⟩ := hp g (List.mem_cons_self g gs)
    have h1 : (0 : ℚ) ≤ 1 - g.chosen.2 := by linarith
    have hle : g.luckAfter ≤ l := by
      rw [heq]
      calc l * (1 - g.chosen.2) ≤ l * 1 :=
            mul_le_mul_of_nonneg_left (by linarith) hl
        _ = l := mul_one l
    have hpos : 0 ≤ g.luckAfter := by
      rw [heq]
      exact mul_nonneg hl h1
    rw [List.map_cons, nonincB]
    simp only [Bool.and_eq_true, decide_eq_true_eq]
    exact ⟨hle, ih hpos hrest fun g' hg' => hp g' (List.mem_cons_of_mem g hg')⟩

/-- C7 (amended): luck starts at 1 and is multiplied by one minus the
chosen probability at every forced probe, and a run that completes with
zero guesses returns luck exactly 1; the non-increase of luck across
successive guesses holds under the extra hypothesis that every chosen
probability lies in [0,1], which the selector does not guarantee. -/
theorem luck_multiplicative_chain (mf : Minefield) (s : Solver) (r : Bool × ℚ)
    (s' : Solver) (gh : Ghost) (h : solve mf s = .ok (r, s', gh)) :
    luckChainB 1 gh.guesses = true ∧
    (gh.guesses = [] → r.2 = 1) ∧
    ((∀ g ∈ gh.guesses, 0 ≤ g.chosen.2 ∧ g.chosen.2 ≤ 1) →
      nonincB 1 (gh.guesses.map fun g => g.luckAfter) = true) := by
  rw [solve] at h
  obtain ⟨hchain, hnil⟩ := sl_luckchain _ h
  exact ⟨hchain, hnil,
    fun hp => luckChain_noninc gh.guesses (by norm_num) hchain hp⟩

set_option maxRecDepth 100000 in
/-- Witness for the amended C7 at the 1 by 1 zero-guess run: the chain
holds vacuously, the returned luck is exactly 1, and the empty luck list
is non-increasing. -/
theorem luck_multiplicative_chain_witness :
    luckChainB 1 Ghost.nil.guesses = true ∧
    (Ghost.nil.guesses = [] → ((true, (1 : ℚ)) : Bool × ℚ).2 = 1) ∧
    ((∀ g ∈ Ghost.nil.guesses, 0 ≤ g.chosen.2 ∧ g.chosen.2 ≤ 1) →
      nonincB 1 (Ghost.nil.guesses.map fun g => g.luckAfter) = true) :=
  luck_multiplicative_chain mfTiny (Solver.new mfTiny) (true, 1)
    (⟨[Cell.Number 0], 0, 0⟩ : Solver) Ghost.nil (by decide)

set_option maxRecDepth 400000 in
/-- C7 counterexample: on the 6 by 1 board the run makes two guesses whose
luck values after the multiplications are -1 and then 5/2, an increasing
pair, so luck is not non-increasing across successive guesses. -/
theorem luck_not_monotone_counterexample :
    ((ghostOf (solve mfLuck (Solver.new mfLuck))).guesses.map
      fun g => g.luckAfter) = [(-1 : ℚ), (5 / 2 : ℚ)] ∧
    nonincB 1 [(-1 : ℚ), (5 / 2 : ℚ)] = false := by
  constructor
  · decide
  · decide

/-! ## The normalisation bound -/

theorem clampQ_le {x : ℚ} (h : 0 ≤ x) : clampQ x ≤ x := by
  rw [clampQ]
  split
  · exact h
  · split
    · linarith
    · exact le_refl x

theorem sumProbs_map_add_le (c : ℚ) (l : Probs)
    (h : ∀ kv ∈ l, 0 ≤ kv.2 + c) :
    sumProbs (l.map fun kv => (kv.1, clampQ (kv.2 + c))) ≤
      sumProbs l + (l.length : ℚ) * c := by
  induction l with
  | nil => simp [sumProbs]
  | cons kv l ih =>
    have h0 := clampQ_le (h kv (List.mem_cons_self kv l))
    have hl := ih fun kv' h' => h kv' (List.mem_cons_of_mem kv h')
    simp only [sumProbs, List.map_cons, List.map_map, List.sum_cons,
      List.length_cons, Function.comp] at *
    have hc : ((l.length + 1 : ℕ) : ℚ) * c = (l.length : ℚ) * c + c := by
      push_cast
      ring
    rw [hc]
    linarith

/-- C5 (amended): provided remaining_mines is nonnegative and the global
normalisation step clamps no frontier entry at zero, the frontier total
right after a complete relaxation iteration (the pass followed by the
normalisation, whose output sum this states) is at most
remaining_mines + 1e-3; the clamp at zero can push the total above the
bound, as the counterexample run shows. -/
theorem normalize_bounds_sum (rm : Int) (probs : Probs) (hrm : 0 ≤ rm)
    (h : ∀ kv ∈ probs,
      0 ≤ kv.2 + ((rm : ℚ) - sumProbs probs) / (probs.length : ℚ)) :
    sumProbs (normalizeProbs rm probs).1 ≤ (rm : ℚ) + 1 / 1000 := by
  rw [normalizeProbs]
  dsimp only
  split
  next hlt =>
    have hne : probs ≠ [] := by
      intro hnil
      subst hnil
      simp only [sumProbs, List.map_nil, List.sum_nil] at hlt
      have hc : (0 : ℚ) ≤ (rm : ℚ) := by exact_mod_cast hrm
      linarith
    have hlen : 0 < (probs.length : ℚ) := by
      exact_mod_cast List.length_pos.mpr hne
    have hsum := sumProbs_map_add_le
      (((rm : ℚ) - sumProbs probs) / (probs.length : ℚ)) probs h
    have hmul : (probs.length : ℚ) *
        (((rm : ℚ) - sumProbs probs) / (probs.length : ℚ)) =
        (rm : ℚ) - sumProbs probs := by
      field_simp
    rw [hmul] at hsum
    linarith
  next hge =>
    push_neg at hge
    linarith

/-- Witness for the amended C5: a two-entry frontier map at 3/4 each with
one remaining mine; the normalisation subtracts 1/4 from each entry with
no clamping and the total lands exactly at the remaining-mines bound. -/
theorem normalize_bounds_sum_witness :
    0 ≤ (1 : Int) ∧
    (∀ kv ∈ ([(((0 : Int), (0 : Int)), (3 / 4 : ℚ)),
              (((1 : Int), (0 : Int)), (3 / 4 : ℚ))] : Probs),
      0 ≤ kv.2 + (((1 : Int) : ℚ) -
        sumProbs [(((0 : Int), (0 : Int)), (3 / 4 : ℚ)),
                  (((1 : Int), (0 : Int)), (3 / 4 : ℚ))]) /
        (([(((0 : Int), (0 : Int)), (3 / 4 : ℚ)),
           (((1 : Int), (0 : Int)), (3 / 4 : ℚ))] : Probs).length : ℚ)) ∧
    sumProbs (normalizeProbs 1
      [(((0 : Int), (0 : Int)), (3 / 4 : ℚ)),
       (((1 : Int), (0 : Int)), (3 / 4 : ℚ))]).1 ≤ ((1 : Int) : ℚ) + 1 / 1000 :=
  ⟨by decide, by decide,
    normalize_bounds_sum 1
      [(((0 : Int), (0 : Int)), (3 / 4 : ℚ)),
       (((1 : Int), (0 : Int)), (3 / 4 : ℚ))] (by decide) (by decide)⟩

set_option maxRecDepth 400000 in
/-- C5 counterexample: on the 5 by 3 board the stalled run records a
relaxation invocation with remaining mines 1 whose per-iteration frontier
totals exceed 1 + 1e-3: the normalisation clamps the third frontier entry
at zero, leaving the total at 4/3. -/
theorem relax_sum_exceeds_counterexample :
    (ghostOf (solve mfRelax (Solver.new mfRelax))).relax.any
      (fun rt => rt.sums.any fun x =>
        decide ((rt.rm : ℚ) + 1 / 1000 < x)) = true := by
  decide

/-! ## The guess selector against the reference definition -/

theorem foldl_min_le (l : List ℚ) : ∀ x : ℚ, l.foldl min x ≤ x := by
  induction l with
  | nil => intro x; exact le_refl x
  | cons c l ih =>
    intro x
    rw [List.foldl_cons]
    exact le_trans (ih (min x c)) (min_le_left x c)

theorem minByFirst_go (rest : Probs) :
    ∀ a : Pos × ℚ,
      rest.foldl
        (fun acc kv =>
          match acc with
          | none => some kv
          | some best => if kv.2 < best.2 then some kv else some best)
        (some a) =
      some (rest.foldl
        (fun best kv => if kv.2 < best.2 then kv else best) a) := by
  induction rest with
  | nil => intro a; rfl
  | cons kv rest ih =>
    intro a
    rw [List.foldl_cons, List.foldl_cons]
    dsimp only
    by_cases h : kv.2 < a.2
    · rw [if_pos h, if_pos h]
      exact ih kv
    · rw [if_neg h, if_neg h]
      exact ih a

theorem minPairFold_spec (l : Probs) :
    ∀ a : Pos × ℚ,
      (l.foldl (fun best kv => if kv.2 < best.2 then kv else best) a).2 =
        (l.map fun kv => kv.2).foldl min a.2 ∧
      (a :: l).find?
          (fun kv => kv.2 == (l.map fun kv => kv.2).foldl min a.2) =
        some (l.foldl (fun best kv => if kv.2 < best.2 then kv else best) a) := by
  induction l with
  | nil =>
    intro a
    exact ⟨rfl, List.find?_cons_of_pos [] (by simp)⟩
  | cons kv l ih =>
    intro a
    rw [List.foldl_cons, List.map_cons, List.foldl_cons]
    by_cases hlt : kv.2 < a.2
    · rw [if_pos hlt, min_eq_right (le_of_lt hlt)]
      obtain ⟨h2, hfind⟩ := ih kv
      refine ⟨h2, ?_⟩
      have hM : (l.map fun kv => kv.2).foldl min kv.2 ≤ kv.2 :=
        foldl_min_le _ _
      have hane :
          ¬((fun kv' : Pos × ℚ =>
            kv'.2 == (l.map fun kv => kv.2).foldl min kv.2) a = true) := by
        simp only [beq_iff_eq]
        intro hca
        rw [hca] at hlt
        linarith
      rw [@List.find?_cons_of_neg (Pos × ℚ)
        (fun kv' : Pos × ℚ => kv'.2 == (l.map fun kv => kv.2).foldl min kv.2)
        a (kv :: l) hane]
      exact hfind
    · rw [if_neg hlt]
      push_neg at hlt
      rw [min_eq_left hlt]
      obtain ⟨h2, hfind⟩ := ih a
      refine ⟨h2, ?_⟩
      by_cases ha : a.2 = (l.map fun kv => kv.2).foldl min a.2
      · have hpa :
            (fun kv' : Pos × ℚ =>
              kv'.2 == (l.map fun kv => kv.2).foldl min a.2) a = true := by
          simp only [beq_iff_eq]
          exact ha
        rw [@List.find?_cons_of_pos (Pos × ℚ)
          (fun kv' : Pos × ℚ => kv'.2 == (l.map fun kv => kv.2).foldl min a.2)
          a (kv :: l) hpa]
        rw [@List.find?_cons_of_pos (Pos × ℚ)
          (fun kv' : Pos × ℚ => kv'.2 == (l.map fun kv => kv.2).foldl min a.2)
          a l hpa] at hfind
        exact hfind
      · have hM : (l.map fun kv => kv.2).foldl min a.2 ≤ a.2 :=
          foldl_min_le _ _
        have hMlt : (l.map fun kv => kv.2).foldl min a.2 < a.2 :=
          lt_of_le_of_ne hM fun he => ha he.symm
        have hpa :
            ¬((fun kv' : Pos × ℚ =>
              kv'.2 == (l.map fun kv => kv.2).foldl min a.2) a = true) := by
          simp only [beq_iff_eq]
          exact ha
        have hpk :
            ¬((fun kv' : Pos × ℚ =>
              kv'.2 == (l.map fun kv => kv.2).foldl min a.2) kv = true) := by
          simp only [beq_iff_eq]
          intro hk
          rw [hk] at hlt
          linarith
        rw [@List.find?_cons_of_neg (Pos × ℚ)
          (fun kv' : Pos × ℚ => kv'.2 == (l.map fun kv => kv.2).foldl min a.2)
          a (kv :: l) hpa]
        rw [@List.find?_cons_of_neg (Pos × ℚ)
          (fun kv' : Pos × ℚ => kv'.2 == (l.map fun kv => kv.2).foldl min a.2)
          kv l hpk]
        rw [@List.find?_cons_of_neg (Pos × ℚ)
          (fun kv' : Pos × ℚ => kv'.2 == (l.map fun kv => kv.2).foldl min a.2)
          a l hpa] at hfind
        exact hfind

theorem minByFirst_eq (probs : Probs) :
    minByFirst probs =
      match specMinVal (probs.map fun kv => kv.2) with
      | none => none
      | some m => probs.find? fun kv => kv.2 == m := by
  cases probs with
  | nil => rfl
  | cons a rest =>
    rw [minByFirst, List.foldl_cons]
    dsimp only
    rw [minByFirst_go, List.map_cons, specMinVal]
    exact (minPairFold_spec rest a).2.symm

theorem find_map_eq (p : Pos → Bool) (g : Int → Pos) (l : List Int) :
    (l.map g).find? p =
      l.findSome? fun x => if p (g x) = true then some (g x) else none := by
  induction l with
  | nil => rfl
  | cons x l ih =>
    rw [List.map_cons, List.findSome?_cons]
    by_cases h : p (g x) = true
    · rw [List.find?_cons_of_pos _ h, if_pos h]
    · rw [List.find?_cons_of_neg _ h, if_neg h, ih]

theorem find_flatMap (p : Pos → Bool) (f : Int → List Pos) (l : List Int) :
    (l.flatMap f).find? p = l.findSome? fun x => (f x).find? p := by
  induction l with
  | nil => rfl
  | cons x l ih =>
    rw [List.flatMap_cons, List.find?_append, List.findSome?_cons]
    cases hx : (f x).find? p with
    | some q => rfl
    | none => exact ih

theorem posOther_eq (mf : Minefield) (b : List Cell) (probs : Probs) :
    posOther mf b probs = (colMajorPositions mf).find? fun pos =>
      decide (boardGet mf b pos = some Cell.Unknown ∧
        lookupP probs pos = none) := by
  rw [posOther, colMajorPositions, find_flatMap]
  simp only [find_map_eq, decide_eq_true_eq]

theorem chooseGuess_eq_specCol (mf : Minefield) (b : List Cell)
    (unknowns : Int) (probs : Probs) (rm : Int) :
    (chooseGuess mf b unknowns probs rm).toOption =
      chooseGuessSpecCol mf b unknowns probs rm := by
  rw [chooseGuess, chooseGuessSpecCol, chooseGuessSpecWith]
  rw [minByFirst_eq, posOther_eq]
  cases hm : specMinVal (probs.map fun kv => kv.2) with
  | none =>
    dsimp only
    cases hf : (colMajorPositions mf).find? (fun pos =>
        decide (boardGet mf b pos = some Cell.Unknown ∧
          lookupP probs pos = none)) with
    | none => rfl
    | some q => rfl
  | some m =>
    dsimp only
    cases hfb : probs.find? (fun kv => kv.2 == m) with
    | none =>
      exfalso
      cases probs with
      | nil => simp [specMinVal] at hm
      | cons a rest =>
        rw [List.map_cons, specMinVal] at hm
        injection hm with hm
        have hatt := (minPairFold_spec rest a).2
        rw [hm] at hatt
        rw [hatt] at hfb
        exact absurd hfb (by simp)
    | some best =>
      dsimp only
      have hbm : best.2 = m := by
        have := List.find?_some hfb
        simpa [beq_iff_eq] using this
      rw [hbm]
      split
      next hcond =>
        cases hf : (colMajorPositions mf).find? (fun pos =>
            decide (boardGet mf b pos = some Cell.Unknown ∧
              lookupP probs pos = none)) with
        | none => rfl
        | some q => rfl
      next hcond => rfl

theorem sl_guesses {mf : Minefield} (fuel : Nat) :
    ∀ {nx : List Pos} {luck : ℚ} {s : Solver} {r : Bool × ℚ} {s' : Solver}
      {gh : Ghost},
      solveLoop mf fuel nx luck s = .ok (r, s', gh) →
      ∀ g ∈ gh.guesses, ∃ sums,
        selectGuess mf g.board g.unknowns g.active g.rm =
          .ok (g.chosen, sums) := by
  induction fuel with
  | zero => intro nx luck s r s' gh h; simp [solveLoop] at h
  | succ fuel ih =>
    intro nx luck s r s' gh h
    rw [solveLoop] at h
    split at h
    · exact absurd h (by simp)
    case h_2 b₀ l₀ s₁ hpa =>
      simp only [Except.ok.injEq, Prod.mk.injEq] at h
      obtain ⟨_, _, hgh⟩ := h
      intro g hg
      rw [← hgh] at hg
      simp [Ghost.nil] at hg
    case h_3 s₁ next₁ newInfo hpa =>
      dsimp only at h
      split at h
      · simp only [Except.ok.injEq, Prod.mk.injEq] at h
        obtain ⟨_, _, hgh⟩ := h
        intro g hg
        rw [← hgh] at hg
        simp [Ghost.nil] at hg
      · split at h
        · split at h
          · exact absurd h (by simp)
          · simp only [Except.ok.injEq, Prod.mk.injEq] at h
            obtain ⟨_, _, hgh⟩ := h
            intro g hg
            rw [← hgh] at hg
            simp [Ghost.nil] at hg
        · split at h
          · exact ih h
          · split at h
            · exact absurd h (by simp)
            next choice sums hsg =>
              split at h
              · exact absurd h (by simp)
              next cell s₂ hunc =>
                split at h
                · simp only [Except.ok.injEq, Prod.mk.injEq] at h
                  obtain ⟨_, _, hgh⟩ := h
                  intro g hg
                  rw [← hgh] at hg
                  simp only [Ghost.push, Ghost.nil, List.mem_cons,
                    List.not_mem_nil, or_false] at hg
                  subst hg
                  exact ⟨sums, hsg⟩
                · split at h
                  · exact absurd h (by simp)
                  next r₂ s₃ gh₂ hrec =>
                    simp only [Except.ok.injEq, Prod.mk.injEq] at h
                    obtain ⟨_, _, hgh⟩ := h
                    intro g hg
                    rw [← hgh] at hg
                    simp only [Ghost.push, List.mem_cons] at hg
                    rcases hg with hg | hg
                    · subst hg
                      exact ⟨sums, hsg⟩
                    · exact ih hrec g hg

/-- C2 (amended): every forced probe recorded by a run equals the
reference selector recomputed at the recorded selector inputs, with the
isolated-cell tie broken by scanning the board in column-major order (the
column in the outer loop, the row varying fastest), not the row-major
order stated by the specification. -/
theorem guess_selector_colmajor (mf : Minefield) (s : Solver) :
    ∀ g ∈ (ghostOf (solve mf s)).guesses,
      chooseGuessSpecCol mf g.board g.unknowns (ctxRelaxed mf g) g.rm =
        some g.chosen := by
  intro g hg
  cases hres : solve mf s with
  | error e =>
    rw [hres] at hg
    simp [ghostOf, Ghost.nil] at hg
  | ok v =>
    obtain ⟨r, s', gh⟩ := v
    rw [hres] at hg
    rw [solve] at hres
    obtain ⟨sums, hsel⟩ := sl_guesses _ hres g (by simpa [ghostOf] using hg)
    rw [selectGuess] at hsel
    split at hsel
    · simp at hsel
    next probs sums₀ hrp =>
      split at hsel
      · simp at hsel
      next ch hcg =>
        simp only [Except.ok.injEq, Prod.mk.injEq] at hsel
        obtain ⟨hch, _⟩ := hsel
        have heq := chooseGuess_eq_specCol mf g.board g.unknowns probs g.rm
        rw [hcg] at heq
        have hctx : ctxRelaxed mf g = probs := by
          unfold ctxRelaxed
          rw [hrp]
        rw [hctx, ← heq]
        simp [Except.toOption, hch]

set_option maxRecDepth 400000 in
/-- Witness for the amended C2 at the recorded guess of the 3 by 3 run:
the column-major reference selector recomputed at the recorded context
returns exactly the recorded probe (0, 2) with probability 1/5. -/
theorem guess_selector_colmajor_witness :
    chooseGuessSpecCol mfScan
      [Cell.Number 4, Cell.Unknown, Cell.Unknown, Cell.Unknown,
       Cell.Unknown, Cell.Unknown, Cell.Unknown, Cell.Unknown, Cell.Unknown]
      8
      (ctxRelaxed mfScan
        (⟨[Cell.Number 4, Cell.Unknown, Cell.Unknown, Cell.Unknown,
           Cell.Unknown, Cell.Unknown, Cell.Unknown, Cell.Unknown,
           Cell.Unknown], [((0 : Int), (0 : Int))], 4, 8,
          (((0 : Int), (2 : Int)), (1 / 5 : ℚ)), (4 / 5 : ℚ)⟩ : GuessCtx))
      4 =
      some (((0 : Int), (2 : Int)), (1 / 5 : ℚ)) :=
  guess_selector_colmajor mfScan (Solver.new mfScan)
    (⟨[Cell.Number 4, Cell.Unknown, Cell.Unknown, Cell.Unknown,
       Cell.Unknown, Cell.Unknown, Cell.Unknown, Cell.Unknown,
       Cell.Unknown], [((0 : Int), (0 : Int))], 4, 8,
      (((0 : Int), (2 : Int)), (1 / 5 : ℚ)), (4 / 5 : ℚ)⟩ : GuessCtx)
    (by decide)

set_option maxRecDepth 400000 in
/-- C2 counterexample: on the 3 by 3 board the code records the probe
(0, 2), found by the column-major pos_other scan, while the row-major
reference selector of the claim recomputed at the same recorded context
chooses (2, 0); the two disagree. -/
theorem guess_selector_rowmajor_counterexample :
    ((ghostOf (solve mfScan (Solver.new mfScan))).guesses.map
      fun g => (g.chosen.1, specRowChoice mfScan g)) =
      [((((0 : Int), (2 : Int)) : Pos),
        some (((2 : Int), (0 : Int)) : Pos))] ∧
    ¬((((0 : Int), (2 : Int)) : Pos) = (((2 : Int), (0 : Int)) : Pos)) :=
  ⟨by decide, by decide⟩

end RustyMines
